import Mathlib

/-!
Verification of the buildmcp build pipeline (src/buildmcp/builder.py and
src/buildmcp/checksum.py) against its natural-language specification.

The embedding models:
- JSON-like document trees (`Json`), with numbers restricted to integers
  (the configuration values exercised by the pipeline);
- the canonical serialization `json.dumps(data, sort_keys=True,
  separators=(",", ":"))` and SHA-256 digesting (`hash_json_data`);
- environment-variable substitution `MCPBuilder.substitute_env_vars`;
- server-set resolution `MCPBuilder.build_servers_json`;
- target dispatch `MCPBuilder.write_target`, per-profile processing
  `MCPBuilder.process_target`, and the orchestrating `MCPBuilder.run`
  together with the lock-file handling (`load_lock_file`/`save_lock_file`).

Python `dict`s are modelled as insertion-ordered association lists with the
update-in-place/append semantics of dict assignment.  Machine integers are
`Nat` with explicit `% 2^32` where the SHA-256 rounds overflow.  External
effects (file writes, subprocess execution) are modelled by an explicit
oracle plus an effect trace.
-/

set_option maxRecDepth 100000
set_option linter.unusedVariables false

namespace BuildMCP

/-! ## Character and string list utilities -/

/-- Concatenate a list of character lists. -/
def concatAll : List (List Char) → List Char
  | [] => []
  | l :: ls => l ++ concatAll ls

/-- Does `p` occur at the start of `l`? -/
def startsWithL : List Char → List Char → Bool
  | [], _ => true
  | _ :: _, [] => false
  | p :: ps, c :: cs => decide (p = c) && startsWithL ps cs

/-- Does `pat` occur as a contiguous substring of `l`?  (Python `in`.) -/
def occursSub (pat : List Char) : List Char → Bool
  | [] => pat.isEmpty
  | c :: cs => startsWithL pat (c :: cs) || occursSub pat cs

/-- ASCII lowercase of a character list (Python `str.lower` on ASCII data). -/
def lowerL (l : List Char) : List Char := l.map Char.toLower

/-- ASCII uppercase of a character list (Python `str.upper` on ASCII data). -/
def upperL (l : List Char) : List Char := l.map Char.toUpper

/-- Hexadecimal digit character (lower case), for `n < 16`. -/
def hexDigitCh (n : Nat) : Char :=
  if n < 10 then Char.ofNat (48 + n) else Char.ofNat (87 + n)

/-- Four-digit hexadecimal rendering of `n < 0x10000` (for `\uXXXX` escapes). -/
def hex4 (n : Nat) : List Char :=
  [hexDigitCh ((n >>> 12) % 16), hexDigitCh ((n >>> 8) % 16),
   hexDigitCh ((n >>> 4) % 16), hexDigitCh (n % 16)]

/-- Code-point lexicographic strict order on character lists: the order Python
uses to compare `str` values (and hence the order of `sort_keys=True`). -/
def strLtL : List Char → List Char → Bool
  | [], [] => false
  | [], _ :: _ => true
  | _ :: _, [] => false
  | a :: as, b :: bs =>
    if a.toNat < b.toNat then true
    else if b.toNat < a.toNat then false
    else strLtL as bs

/-- Strict key order on `String`. -/
def keyLt (a b : String) : Bool := strLtL a.data b.data

/-- Reflexive key order on `String`. -/
def keyLe (a b : String) : Bool := keyLt a b || decide (a = b)

/-! ## JSON-like document trees

`ServerDef`s, configuration sections and built payloads are arbitrary
JSON-like trees (spec section 3).  Numbers are restricted to integers. -/

inductive Json where
  | null
  | bool (b : Bool)
  | num (n : Int)
  | str (s : String)
  | arr (xs : List Json)
  | obj (entries : List (String × Json))

/-- `json.dumps` escaping of one character with `ensure_ascii=True`
(the Python default used by `hash_json_data`). -/
def escapeChar (c : Char) : List Char :=
  let n := c.toNat
  if n = 34 then ['\\', '"']
  else if n = 92 then ['\\', '\\']
  else if n = 10 then ['\\', 'n']
  else if n = 13 then ['\\', 'r']
  else if n = 9 then ['\\', 't']
  else if n = 8 then ['\\', 'b']
  else if n = 12 then ['\\', 'f']
  else if n < 32 || 126 < n then
    if n < 65536 then '\\' :: 'u' :: hex4 n
    else ('\\' :: 'u' :: hex4 (55296 + (n - 65536) / 1024)) ++
         ('\\' :: 'u' :: hex4 (56320 + (n - 65536) % 1024))
  else [c]

/-- `json.dumps` rendering of a string value. -/
def dumpStrL (s : String) : List Char :=
  '"' :: concatAll (s.data.map escapeChar) ++ ['"']

/-- Order used on already-serialized object items: compare keys with the
Python string order.  `sort_keys=True` sorts the items of a mapping by key. -/
def entryLe (a b : String × List Char) : Prop := keyLe a.1 b.1 = true

instance : DecidableRel entryLe := fun a b => instDecidableEqBool (keyLe a.1 b.1) true

/-- Sort serialized object items by key (Python `sorted` is a stable sort;
with the duplicate-free keys of a parsed JSON object the result is the
unique key-sorted arrangement). -/
def sortPairs (l : List (String × List Char)) : List (String × List Char) :=
  List.insertionSort entryLe l

/-- Render sorted object items: `"key":value` joined by `,`. -/
def renderItems : List (String × List Char) → List Char
  | [] => []
  | [(k, v)] => dumpStrL k ++ ':' :: v
  | (k, v) :: p :: l => dumpStrL k ++ ':' :: v ++ ',' :: renderItems (p :: l)

mutual
/-- Canonical serialization: `json.dumps(data, sort_keys=True,
separators=(",", ":"))` — keys sorted lexically at every nesting level, no
incidental whitespace.  (Sorting the pairs after serializing each value
equals serializing after sorting, since the order depends only on keys.) -/
def dumpsL : Json → List Char
  | .null => "null".data
  | .bool true => "true".data
  | .bool false => "false".data
  | .num n => (toString n).data
  | .str s => dumpStrL s
  | .arr xs => '[' :: dumpsArr xs ++ [']']
  | .obj l => '{' :: renderItems (sortPairs (dumpsEntries l)) ++ ['}']

/-- Comma-joined serialization of array elements. -/
def dumpsArr : List Json → List Char
  | [] => []
  | [x] => dumpsL x
  | x :: y :: xs => dumpsL x ++ ',' :: dumpsArr (y :: xs)

/-- Serialize each value of an object's entry list, keeping keys. -/
def dumpsEntries : List (String × Json) → List (String × List Char)
  | [] => []
  | (k, v) :: l => (k, dumpsL v) :: dumpsEntries l
end

/-- Canonical serialization as a `String`. -/
def dumps (j : Json) : String := String.mk (dumpsL j)

/-! ## UTF-8 and SHA-256 (`hash_json_data`) -/

/-- UTF-8 encoding of one character (code point) as bytes. -/
def utf8Char (c : Char) : List Nat :=
  let n := c.toNat
  if n < 128 then [n]
  else if n < 2048 then [192 + n / 64, 128 + n % 64]
  else if n < 65536 then [224 + n / 4096, 128 + (n / 64) % 64, 128 + n % 64]
  else [240 + n / 262144, 128 + (n / 4096) % 64, 128 + (n / 64) % 64, 128 + n % 64]

/-- UTF-8 encoding of a character list (Python `str.encode("utf-8")`). -/
def utf8Encode (l : List Char) : List Nat := (l.map utf8Char).flatten

/-- Reduce to a 32-bit word. -/
def m32 (x : Nat) : Nat := x % 4294967296

/-- 32-bit right rotation. -/
def rotr32 (n x : Nat) : Nat := m32 ((x >>> n) ||| (x <<< (32 - n)))

def bigSigma0 (x : Nat) : Nat := (rotr32 2 x) ^^^ (rotr32 13 x) ^^^ (rotr32 22 x)
def bigSigma1 (x : Nat) : Nat := (rotr32 6 x) ^^^ (rotr32 11 x) ^^^ (rotr32 25 x)
def smallSigma0 (x : Nat) : Nat := (rotr32 7 x) ^^^ (rotr32 18 x) ^^^ (x >>> 3)
def smallSigma1 (x : Nat) : Nat := (rotr32 17 x) ^^^ (rotr32 19 x) ^^^ (x >>> 10)

/-- SHA-256 round constants. -/
def shaK : List Nat :=
  [1116352408, 1899447441, 3049323471, 3921009573, 961987163,
   1508970993, 2453635748, 2870763221, 3624381080, 310598401,
   607225278, 1426881987, 1925078388, 2162078206, 2614888103,
   3248222580, 3835390401, 4022224774, 264347078, 604807628,
   770255983, 1249150122, 1555081692, 1996064986, 2554220882,
   2821834349, 2952996808, 3210313671, 3336571891, 3584528711,
   113926993, 338241895, 666307205, 773529912, 1294757372,
   1396182291, 1695183700, 1986661051, 2177026350, 2456956037,
   2730485921, 2820302411, 3259730800, 3345764771, 3516065817,
   3600352804, 4094571909, 275423344, 430227734, 506948616,
   659060556, 883997877, 958139571, 1322822218, 1537002063,
   1747873779, 1955562222, 2024104815, 2227730452, 2361852424,
   2428436474, 2756734187, 3204031479, 3329325298]

/-- SHA-256 initial state. -/
def shaH0 : List Nat :=
  [1779033703, 3144134277, 1013904242, 2773480762,
   1359893119, 2600822924, 528734635, 1541459225]

/-- Big-endian 8-byte rendering of the bit length. -/
def be8 (n : Nat) : List Nat :=
  [(n >>> 56) % 256, (n >>> 48) % 256, (n >>> 40) % 256, (n >>> 32) % 256,
   (n >>> 24) % 256, (n >>> 16) % 256, (n >>> 8) % 256, n % 256]

/-- SHA-256 message padding. -/
def padBytes (msg : List Nat) : List Nat :=
  let len := msg.length
  let zeros := (119 - (len % 64)) % 64
  msg ++ [0x80] ++ List.replicate zeros 0 ++ be8 (8 * len)

/-- Group bytes into big-endian 32-bit words. -/
def bytesToWords : List Nat → List Nat
  | b0 :: b1 :: b2 :: b3 :: rest => (((b0 * 256 + b1) * 256 + b2) * 256 + b3) :: bytesToWords rest
  | _ => []

/-- One message-schedule extension step. -/
def schedStep (w : List Nat) : List Nat :=
  let i := w.length
  w ++ [m32 (smallSigma1 (w.getD (i - 2) 0) + w.getD (i - 7) 0 +
             smallSigma0 (w.getD (i - 15) 0) + w.getD (i - 16) 0)]

/-- Extend the 16 chunk words to the 64 schedule words. -/
def schedLoop : Nat → List Nat → List Nat
  | 0, w => w
  | n + 1, w => schedLoop n (schedStep w)

/-- One SHA-256 compression round on the 8-word working state. -/
def roundStep (wi ki : Nat) (st : List Nat) : List Nat :=
  let a := st.getD 0 0
  let b := st.getD 1 0
  let c := st.getD 2 0
  let d := st.getD 3 0
  let e := st.getD 4 0
  let f := st.getD 5 0
  let g := st.getD 6 0
  let h := st.getD 7 0
  let ch := (e &&& f) ^^^ ((4294967295 ^^^ e) &&& g)
  let maj := (a &&& b) ^^^ (a &&& c) ^^^ (b &&& c)
  let t1 := m32 (h + bigSigma1 e + ch + ki + wi)
  let t2 := m32 (bigSigma0 a + maj)
  [m32 (t1 + t2), a, b, c, m32 (d + t1), e, f, g]

/-- All 64 compression rounds. -/
def mainLoop : List (Nat × Nat) → List Nat → List Nat
  | [], st => st
  | (wi, ki) :: rest, st => mainLoop rest (roundStep wi ki st)

/-- Add the working state back into the chaining state, word-wise mod 2^32. -/
def addStates (st st' : List Nat) : List Nat :=
  (st.zip st').map (fun p => m32 (p.1 + p.2))

/-- Process one 64-byte chunk. -/
def compressChunk (st chunk : List Nat) : List Nat :=
  let w := schedLoop 48 (bytesToWords chunk)
  addStates st (mainLoop (w.zip shaK) st)

/-- Split the padded message into 64-byte chunks (fuel-driven, fuel is the
byte count so it never runs out). -/
def splitChunks : Nat → List Nat → List (List Nat)
  | _, [] => []
  | 0, bs => [bs]
  | f + 1, bs => bs.take 64 :: splitChunks f (bs.drop 64)

/-- SHA-256 final state (8 words) of a byte string. -/
def sha256State (msg : List Nat) : List Nat :=
  let padded := padBytes msg
  (splitChunks padded.length padded).foldl compressChunk shaH0

/-- The 256-bit digest as a natural number (big-endian word concatenation;
each word is a 32-bit machine word, hence the explicit `m32`). -/
def digestNat (st : List Nat) : Nat :=
  st.foldl (fun acc h => acc * 4294967296 + m32 h) 0

/-- The 64 lowercase hex characters of the digest (`hexdigest()`). -/
def toHex64 (n : Nat) : List Char :=
  (List.range 64).map (fun i => hexDigitCh ((n >>> (4 * (63 - i))) % 16))

/-- Digest of a JSON value as a natural number. -/
def hashNat (data : Json) : Nat := digestNat (sha256State (utf8Encode (dumpsL data)))

/-- `hash_json_data(data)` (checksum.py): SHA-256 hex digest of the canonical
serialization.  (The `algorithm` parameter defaults to `"sha256"`; the
builder always uses the default.) -/
def hash_json_data (data : Json) : String := String.mk (toHex64 (hashNat data))

/-! ## Key-permutation equivalence and well-formedness of trees -/

mutual
/-- `JPerm a b`: `b` is `a` with the entries of mappings permuted at any
depth (values related recursively, keys and everything else unchanged).
This is the "permuting mapping keys at any nesting level" relation of the
hashing guarantee. -/
inductive JPerm : Json → Json → Prop where
  | null : JPerm .null .null
  | bool : ∀ b, JPerm (.bool b) (.bool b)
  | num : ∀ n, JPerm (.num n) (.num n)
  | str : ∀ s, JPerm (.str s) (.str s)
  | arr : ∀ xs ys, JPermList xs ys → JPerm (.arr xs) (.arr ys)
  | obj : ∀ l m m', JPermEntries l m → List.Perm m m' → JPerm (.obj l) (.obj m')

/-- Pointwise `JPerm` on array elements. -/
inductive JPermList : List Json → List Json → Prop where
  | nil : JPermList [] []
  | cons : ∀ x y xs ys, JPerm x y → JPermList xs ys → JPermList (x :: xs) (y :: ys)

/-- Pointwise key-preserving `JPerm` on object entries. -/
inductive JPermEntries : List (String × Json) → List (String × Json) → Prop where
  | nil : JPermEntries [] []
  | cons : ∀ k v w l m, JPerm v w → JPermEntries l m →
      JPermEntries ((k, v) :: l) ((k, w) :: m)
end

/-- Are the strings of a list pairwise distinct? -/
def keysNodupB : List String → Bool
  | [] => true
  | k :: ks => !(ks.any (fun k' => decide (k' = k))) && keysNodupB ks

mutual
/-- Every mapping in the tree has duplicate-free keys (always true of trees
produced by a JSON/JSON5 parse, where object keys are unique). -/
def JNodup : Json → Bool
  | .null => true
  | .bool _ => true
  | .num _ => true
  | .str _ => true
  | .arr xs => JNodupList xs
  | .obj l => keysNodupB (l.map (fun p => p.1)) && JNodupEntries l

def JNodupList : List Json → Bool
  | [] => true
  | x :: xs => JNodup x && JNodupList xs

def JNodupEntries : List (String × Json) → Bool
  | [] => true
  | (_, v) :: l => JNodup v && JNodupEntries l
end

/-! ## Environment-variable substitution (`substitute_env_vars`)

The regex `\$\{([^}]+)\}` is embedded as a left-to-right scanner: at each
`${`, the name is the (nonempty) run of characters up to the first `}`; on a
failed match the engine advances one position.  `re.sub` with a function
replacement inserts the returned value verbatim and never rescans it. -/

/-- Process environment: variable name to optional value (`os.getenv`). -/
def EnvF := String → Option String

/-- Sensitive-name markers checked (upper-cased) by the verbose redaction. -/
def sensitiveMarkers : List String := ["KEY", "TOKEN", "SECRET", "PASSWORD"]

/-- Verbose display of a substituted value: values longer than 10 characters
whose variable name (upper-cased) contains a sensitive marker are shown as
first 3 chars ++ "..." ++ last 3 chars; all others are shown in full. -/
def redactDisplay (name value : List Char) : List Char :=
  if 10 < value.length &&
     sensitiveMarkers.any (fun k => occursSub k.data (upperL name)) then
    value.take 3 ++ "...".data ++ value.drop (value.length - 3)
  else value

/-- Attempt the regex match just after a `${`: the captured name is the
nonempty run `[^}]+` up to the first `}`; `none` when there is no closing
brace or the run is empty (the regex then fails at this position). -/
def scanOpen (cs : List Char) : Option (List Char × List Char) :=
  match cs.takeWhile (fun c => !decide (c = '}')),
        cs.dropWhile (fun c => !decide (c = '}')) with
  | n :: name, _ :: cs' => some (n :: name, cs')
  | _, _ => none

/-- One pass of `pattern.sub(replace_var, data)` over a character list.
Returns (output, missing variable names in match order, verbose log as
(name, displayed value) pairs).  On a failed match the scan advances one
position, like the regex engine.  The fuel argument only forces structural
recursion; `fuel = length` always suffices. -/
def goSub (env : EnvF) (verbose : Bool) : Nat → List Char →
    List Char × List String × List (String × String)
  | _, [] => ([], [], [])
  | 0, cs => (cs, [], [])
  | f + 1, c :: cs =>
    if decide (c = '$') && decide (cs.head? = some '{') then
      match scanOpen cs.tail with
      | some (name, cs') =>
        let nm := String.mk name
        match env nm with
        | some v =>
          let r := goSub env verbose f cs'
          (v.data ++ r.1, r.2.1,
           (if verbose then [(nm, String.mk (redactDisplay name v.data))] else []) ++ r.2.2)
        | none =>
          let r := goSub env verbose f cs'
          ('$' :: '{' :: name ++ '}' :: r.1, nm :: r.2.1, r.2.2)
      | none =>
        let r := goSub env verbose f cs
        (c :: r.1, r.2.1, r.2.2)
    else
      let r := goSub env verbose f cs
      (c :: r.1, r.2.1, r.2.2)

/-- Substitution over one string leaf. -/
def substStr (env : EnvF) (verbose : Bool) (s : String) :
    List Char × List String × List (String × String) :=
  goSub env verbose s.data.length s.data

mutual
/-- `MCPBuilder.substitute_env_vars`: recursively substitute `${NAME}`
placeholders in every string leaf; dictionary keys are untouched; other
primitives pass through.  Returns the substituted tree, the missing
variable names recorded into `self._missing_vars` (in encounter order), and
the verbose substitution log. -/
def substitute_env_vars (env : EnvF) (verbose : Bool) :
    Json → Json × List String × List (String × String)
  | .null => (.null, [], [])
  | .bool b => (.bool b, [], [])
  | .num n => (.num n, [], [])
  | .str s =>
    let r := substStr env verbose s
    (.str (String.mk r.1), r.2.1, r.2.2)
  | .arr xs =>
    let r := substArr env verbose xs
    (.arr r.1, r.2.1, r.2.2)
  | .obj l =>
    let r := substEntries env verbose l
    (.obj r.1, r.2.1, r.2.2)

def substArr (env : EnvF) (verbose : Bool) :
    List Json → List Json × List String × List (String × String)
  | [] => ([], [], [])
  | x :: xs =>
    let r := substitute_env_vars env verbose x
    let rs := substArr env verbose xs
    (r.1 :: rs.1, r.2.1 ++ rs.2.1, r.2.2 ++ rs.2.2)

def substEntries (env : EnvF) (verbose : Bool) :
    List (String × Json) → List (String × Json) × List String × List (String × String)
  | [] => ([], [], [])
  | (k, v) :: l =>
    let r := substitute_env_vars env verbose v
    let rs := substEntries env verbose l
    ((k, r.1) :: rs.1, r.2.1 ++ rs.2.1, r.2.2 ++ rs.2.2)
end

/-! ### String decompositions for stating the substitution contract -/

/-- A fragment of an input string: literal text or a `${NAME}` placeholder. -/
inductive Frag where
  | lit (s : List Char)
  | var (n : List Char)

/-- Render a fragment back to text. -/
def renderFrag : Frag → List Char
  | .lit s => s
  | .var n => '$' :: '{' :: n ++ ['}']

/-- Render a fragment list back to text. -/
def renderFrags (fs : List Frag) : List Char := concatAll (fs.map renderFrag)

/-- What `replace_var` substitutes for a fragment: literals unchanged; a
bound variable becomes its raw environment value; an unbound one keeps the
literal placeholder. -/
def substFrag (env : EnvF) : Frag → List Char
  | .lit s => s
  | .var n =>
    match env (String.mk n) with
    | some v => v.data
    | none => '$' :: '{' :: n ++ ['}']

/-- The variable names of the decomposition that are unbound, in order. -/
def missingOf (env : EnvF) : List Frag → List String
  | [] => []
  | .lit _ :: fs => missingOf env fs
  | .var n :: fs =>
    match env (String.mk n) with
    | some _ => missingOf env fs
    | none => String.mk n :: missingOf env fs

/-- The verbose log entries of the decomposition, in order. -/
def logOf (env : EnvF) (verbose : Bool) : List Frag → List (String × String)
  | [] => []
  | .lit _ :: fs => logOf env verbose fs
  | .var n :: fs =>
    match env (String.mk n) with
    | some v =>
      (if verbose then [(String.mk n, String.mk (redactDisplay n v.data))] else []) ++
        logOf env verbose fs
    | none => logOf env verbose fs

/-- Is a fragment a literal? -/
def isLitF : Frag → Bool
  | .lit _ => true
  | .var _ => false

/-- Well-formed decomposition: literals contain no `${` (so the placeholders
of the rendered string are exactly the `var` fragments), no two literals are
adjacent, and each name is a nonempty run of characters other than `}`. -/
def fragsWF : List Frag → Bool
  | [] => true
  | .lit s :: fs =>
    !occursSub ['$', '{'] s &&
    (match fs with
     | .lit _ :: _ => false
     | _ => true) &&
    fragsWF fs
  | .var n :: fs => !n.isEmpty && !n.any (fun c => decide (c = '}')) && fragsWF fs

/-! ## Dictionaries (Python `dict` as insertion-ordered association list) -/

/-- First-match lookup (`d.get(k)` / `d[k]` on a duplicate-free dict). -/
def lookupStr {α : Type} (k : String) : List (String × α) → Option α
  | [] => none
  | (k', v) :: l => if k' = k then some v else lookupStr k l

/-- Replace the value stored under `k`, keeping entry positions. -/
def replaceKey {α : Type} (k : String) (v : α) : List (String × α) → List (String × α)
  | [] => []
  | p :: l => if p.1 = k then (k, v) :: replaceKey k v l else p :: replaceKey k v l

/-- Python dict assignment `d[k] = v`: an existing key keeps its position
and gets the new value; a new key is appended. -/
def dictInsert {α : Type} (l : List (String × α)) (k : String) (v : α) :
    List (String × α) :=
  if l.any (fun p => decide (p.1 = k)) then replaceKey k v l
  else l ++ [(k, v)]

/-! ## Target dispatch (`MCPBuilder.write_target`) -/

/-- A target specification: a string (file path), a string-valued mapping
(shell write when it has a `"write"` key), or any other JSON value. -/
inductive TargetSpec where
  | path (s : String)
  | cmd (entries : List (String × String))
  | other

/-- Externally visible side effects of a dispatch. -/
inductive Effect where
  | fileWrite (path : String)
  | procExec (command : String)
deriving DecidableEq

/-- Captured result of `subprocess.run` for a shell write. -/
structure ShellResult where
  returncode : Int
  stdout : String
  stderr : String

/-- Environment oracle for external effects: whether a file write succeeds
(no `OSError`), and what a shell command returns. -/
structure Oracle where
  fileOk : String → Bool
  shell : String → ShellResult

/-- The fixed success markers scanned for (case-insensitively) in the
combined output of a shell write. -/
def success_patterns : List String :=
  ["Configuration saved successfully", "successfully", "Success", "Updated", "Complete"]

/-- `has_success_message`: does the combined output contain any success
pattern, case-insensitively? -/
def has_success_message (output : String) : Bool :=
  success_patterns.any (fun p => occursSub (lowerL p.data) (lowerL output.data))

/-- Result of one `write_target` call. -/
structure WriteResult where
  ok : Bool
  effects : List Effect
  invalidReported : Bool
  failureDetail : Option String
deriving DecidableEq

/-- Does a string end with the given suffix? -/
def endsWithL (suffix l : List Char) : Bool := List.isSuffixOf suffix l

/-- `MCPBuilder.write_target`: preview (dry-run) mode returns success with
no effect; a `.json`/`.json5` string path is a file write; a mapping with a
`"write"` key pipes the payload to the command and classifies success by
exit code zero or a success marker in the combined output (failure detail:
stderr if non-empty, else stdout if non-empty); anything else reports an
invalid target specification and returns false.  The `servers` payload is
carried for fidelity; its serialization does not affect the outcome. -/
def write_target (dryRun : Bool) (oracle : Oracle) (spec : TargetSpec)
    (servers : List (String × Json)) : WriteResult :=
  if dryRun then ⟨true, [], false, none⟩
  else
    match spec with
    | .path s =>
      if endsWithL ".json".data s.data || endsWithL ".json5".data s.data then
        if oracle.fileOk s then ⟨true, [.fileWrite s], false, none⟩
        else ⟨false, [.fileWrite s], false, none⟩
      else ⟨false, [], true, none⟩
    | .cmd entries =>
      match lookupStr "write" entries with
      | some c =>
        let r := oracle.shell c
        if r.returncode = 0 || has_success_message (r.stdout ++ r.stderr) then
          ⟨true, [.procExec c], false, none⟩
        else
          ⟨false, [.procExec c], false,
           if r.stderr ≠ "" then some r.stderr
           else if r.stdout ≠ "" then some r.stdout
           else none⟩
      | none => ⟨false, [], true, none⟩
    | .other => ⟨false, [], true, none⟩

/-- Does `write_target` (outside preview mode) reject this spec as invalid?
The complement of its two dispatch guards. -/
def invalidTarget : TargetSpec → Bool
  | .path s => !(endsWithL ".json".data s.data || endsWithL ".json5".data s.data)
  | .cmd entries => (lookupStr "write" entries).isNone
  | .other => true

/-! ## Server-set resolution (`MCPBuilder.build_servers_json`) -/

/-- `MCPBuilder.build_servers_json`: start from a deep copy of the base
servers, then for each selected name, in order, skip it when it is not a
template, else store a deep copy of the template under that name
(overwriting any colliding entry).  Deep copies are value copies in the
pure model. -/
def build_servers_json (server_names : List String)
    (templates : List (String × Json)) (base_servers : List (String × Json)) :
    List (String × Json) :=
  server_names.foldl
    (fun servers name =>
      match lookupStr name templates with
      | none => servers
      | some t => dictInsert servers name t)
    base_servers

/-! ## Per-profile processing and the orchestrator -/

/-- How one profile's processing ended. -/
inductive RunOutcome where
  | noTarget
  | noServers
  | unchanged
  | dispatched (ok : Bool)
deriving DecidableEq

/-- Result of `process_target` for one profile. -/
structure ProcResult where
  ok : Bool
  hashes : List (String × String)
  outcome : RunOutcome
  dispatches : Nat
  effects : List Effect

/-- The substituted server set a profile builds. -/
def builtServers (env : EnvF) (verbose : Bool) (server_names : List String)
    (templates base_servers : List (String × Json)) : List (String × Json) :=
  (substEntries env verbose (build_servers_json server_names templates base_servers)).1

/-- The content hash `process_target` computes for a profile. -/
def builtHash (env : EnvF) (verbose : Bool) (server_names : List String)
    (templates base_servers : List (String × Json)) : String :=
  hash_json_data (.obj (builtServers env verbose server_names templates base_servers))

/-- `MCPBuilder.process_target`: build the server set (empty set: report and
succeed), substitute environment variables, hash the built configuration and
record the hash into `_profile_hashes` (before any dispatch), then dispatch
unless the recorded lock hash is non-empty and equal to the built hash and
force mode is off. -/
def process_target (force dryRun : Bool) (env : EnvF) (verbose : Bool)
    (oracle : Oracle) (locked hashes : List (String × String))
    (profile : String) (server_names : List String) (target : TargetSpec)
    (templates base_servers : List (String × Json)) : ProcResult :=
  let servers := build_servers_json server_names templates base_servers
  if servers.isEmpty then ⟨true, hashes, .noServers, 0, []⟩
  else
    let servers' := (substEntries env verbose servers).1
    let built_hash := hash_json_data (.obj servers')
    let hashes' := dictInsert hashes profile built_hash
    let should_write :=
      if force then true
      else
        match lookupStr profile locked with
        | some lh => if lh ≠ "" then decide (lh ≠ built_hash) else true
        | none => true
    if should_write then
      let w := write_target dryRun oracle target servers'
      ⟨w.ok, hashes', .dispatched w.ok, 1, w.effects⟩
    else ⟨true, hashes', .unchanged, 0, []⟩

/-- The four configuration sections `run` extracts. -/
structure Config where
  mcpServers : List (String × Json)
  templates : List (String × Json)
  profiles : List (String × List String)
  targets : List (String × TargetSpec)

/-- Result of one orchestrator pass. -/
structure RunResult where
  lock : Option (List (String × String))
  dispatches : Nat
  outcomes : List (String × RunOutcome)
  effects : List Effect

/-- The profile loop of `run`: profiles without a target are reported and
skipped; the others go through `process_target`, threading
`_profile_hashes`.  Returns (outcomes, final hashes, dispatch count,
effects). -/
def runLoop (force dryRun : Bool) (env : EnvF) (verbose : Bool)
    (oracle : Oracle) (locked : List (String × String))
    (templates base_servers : List (String × Json))
    (targets : List (String × TargetSpec)) :
    List (String × List String) → List (String × String) →
    List (String × RunOutcome) × List (String × String) × Nat × List Effect
  | [], hashes => ([], hashes, 0, [])
  | (p, names) :: rest, hashes =>
    match lookupStr p targets with
    | none =>
      let r := runLoop force dryRun env verbose oracle locked templates base_servers
        targets rest hashes
      ((p, .noTarget) :: r.1, r.2)
    | some tgt =>
      let pr := process_target force dryRun env verbose oracle locked hashes
        p names tgt templates base_servers
      let r := runLoop force dryRun env verbose oracle locked templates base_servers
        targets rest pr.hashes
      ((p, pr.outcome) :: r.1, r.2.1, pr.dispatches + r.2.2.1, pr.effects ++ r.2.2.2)

/-- `MCPBuilder.run` (normal mode, configuration already loaded): load the
lock file (absent or corrupt: empty mapping), bail out early when there are
no profiles or no targets, run the profile loop, then — unless in dry-run
mode — save the lock file, a no-op when `_profile_hashes` is empty.
`lock` models the lock-file state as the persisted mapping (`none`: no
file). -/
def run (cfg : Config) (env : EnvF) (verbose force dryRun : Bool)
    (oracle : Oracle) (lock0 : Option (List (String × String))) : RunResult :=
  let locked := lock0.getD []
  if cfg.profiles.isEmpty then ⟨lock0, 0, [], []⟩
  else if cfg.targets.isEmpty then ⟨lock0, 0, [], []⟩
  else
    let r := runLoop force dryRun env verbose oracle locked cfg.templates
      cfg.mcpServers cfg.targets cfg.profiles []
    let lock' :=
      if dryRun then lock0
      else if r.2.1.isEmpty then lock0
      else some r.2.1
    ⟨lock', r.2.2.1, r.1, r.2.2.2⟩

/-- The bytes `save_lock_file` writes for a mapping:
`json.dumps(mapping, indent=2) + "\n"`. -/
def lockBytes (m : List (String × String)) : String :=
  match m with
  | [] => "{}\n"
  | _ =>
    String.mk (('{' :: '\n' :: (renderLockItems m)) ++ ['\n', '}', '\n'])
where
  renderLockItems : List (String × String) → List Char
    | [] => []
    | [(k, v)] => ' ' :: ' ' :: dumpStrL k ++ ':' :: ' ' :: dumpStrL v
    | (k, v) :: p :: l =>
      ' ' :: ' ' :: dumpStrL k ++ ':' :: ' ' :: dumpStrL v ++ ',' :: '\n' ::
        renderLockItems (p :: l)

/-- Lock-file bytes of a lock state (`none`: no file on disk). -/
def lockBytesOpt : Option (List (String × String)) → Option String
  | none => none
  | some m => some (lockBytes m)

/-! ## Auxiliary definitions used by theorem statements -/

/-- Boolean string membership. -/
def memB (k : String) (l : List String) : Bool := l.any (fun x => decide (x = k))

/-- The output keys `build_servers_json` appends after the base keys: the
selected template names, in list order, first occurrence only, skipping
names already present among the base keys.  (`seen` carries the keys
already emitted.) -/
def newKeys (templates : List (String × Json)) :
    List String → List String → List String
  | [], _ => []
  | n :: ns, seen =>
    if (lookupStr n templates).isSome && !memB n seen then
      n :: newKeys templates ns (n :: seen)
    else newKeys templates ns seen

/-- The `_profile_hashes` mapping a pass accumulates: for every profile
with a target and a nonempty resolved server set, its built hash is
recorded — independently of lock comparisons and dispatch outcomes. -/
def pureHashes (env : EnvF) (verbose : Bool)
    (templates base_servers : List (String × Json))
    (targets : List (String × TargetSpec)) :
    List (String × List String) → List (String × String) → List (String × String)
  | [], hashes => hashes
  | (p, names) :: rest, hashes =>
    match lookupStr p targets with
    | none => pureHashes env verbose templates base_servers targets rest hashes
    | some _ =>
      if (build_servers_json names templates base_servers).isEmpty then
        pureHashes env verbose templates base_servers targets rest hashes
      else
        pureHashes env verbose templates base_servers targets rest
          (dictInsert hashes p (builtHash env verbose names templates base_servers))

/-- A fixed benign effect oracle for concrete witnesses. -/
def oracle0 : Oracle := ⟨fun _ => true, fun _ => ⟨0, "", ""⟩⟩

/-- An oracle whose shell commands exit with code 1 but print
"Configuration saved successfully" to standard error. -/
def oracle1 : Oracle := ⟨fun _ => true, fun _ => ⟨1, "", "Configuration saved successfully"⟩⟩

/-- The empty process environment. -/
def env0 : EnvF := fun _ => none

/-- A process environment binding only `HOME`. -/
def env1 : EnvF := fun s => if s = "HOME" then some "/home/u" else none

/-! # Theorems -/

/-! ## Dictionary lemmas -/

theorem lookupStr_eq_none {α : Type} (k : String) (l : List (String × α))
    (h : l.any (fun p => decide (p.1 = k)) = false) : lookupStr k l = none := by
  induction l with
  | nil => rfl
  | cons p l ih =>
    simp only [List.any_cons, Bool.or_eq_false_iff, decide_eq_false_iff_not] at h
    simp [lookupStr, h.1, ih h.2]

theorem lookupStr_replaceKey_self {α : Type} (k : String) (v : α) :
    ∀ (l : List (String × α)), l.any (fun p => decide (p.1 = k)) = true →
      lookupStr k (replaceKey k v l) = some v := by
  intro l
  induction l with
  | nil => intro h; simp at h
  | cons p l ih =>
    intro h
    by_cases hp : p.1 = k
    · simp [replaceKey, lookupStr, hp]
    · simp only [List.any_cons, decide_eq_true_eq, Bool.or_eq_true] at h
      rcases h with h | h
      · exact absurd h hp
      · simp [replaceKey, lookupStr, hp, ih h]

theorem lookupStr_dictInsert_self {α : Type} (l : List (String × α)) (k : String) (v : α) :
    lookupStr k (dictInsert l k v) = some v := by
  unfold dictInsert
  by_cases h : l.any (fun p => decide (p.1 = k)) = true
  · simp only [h, if_true]
    exact lookupStr_replaceKey_self k v l h
  · simp only [h, if_false]
    have hn : l.any (fun p => decide (p.1 = k)) = false := by
      revert h; cases l.any (fun p => decide (p.1 = k)) <;> simp
    clear h
    induction l with
    | nil => simp [lookupStr]
    | cons p l ih =>
      simp only [List.any_cons, Bool.or_eq_false_iff, decide_eq_false_iff_not] at hn
      simpa [lookupStr, hn.1] using ih hn.2

theorem lookupStr_replaceKey_other {α : Type} (k k' : String) (v : α) (hne : k' ≠ k) :
    ∀ (l : List (String × α)), lookupStr k' (replaceKey k v l) = lookupStr k' l := by
  intro l
  induction l with
  | nil => rfl
  | cons p l ih =>
    by_cases hp : p.1 = k
    · simp [replaceKey, lookupStr, hp, Ne.symm hne, ih]
    · simp [replaceKey, lookupStr, hp, ih]

theorem lookupStr_dictInsert_other {α : Type} (l : List (String × α)) (k k' : String)
    (v : α) (hne : k' ≠ k) : lookupStr k' (dictInsert l k v) = lookupStr k' l := by
  have happ : ∀ (m : List (String × α)), lookupStr k' (m ++ [(k, v)]) = lookupStr k' m := by
    intro m
    induction m with
    | nil => simp [lookupStr, Ne.symm hne]
    | cons p m ih => by_cases hp : p.1 = k' <;> simp [lookupStr, hp, ih]
  unfold dictInsert
  split
  · exact lookupStr_replaceKey_other k k' v hne l
  · exact happ l

theorem dictInsert_ne_nil {α : Type} (l : List (String × α)) (k : String) (v : α) :
    dictInsert l k v ≠ [] := by
  unfold dictInsert
  split
  · intro h
    rcases l with _ | ⟨p, l⟩
    · simp_all
    · by_cases hp : p.1 = k <;> simp [replaceKey, hp] at h
  · intro h
    have := congrArg List.length h
    simp at this

theorem keys_replaceKey {α : Type} (k : String) (v : α) :
    ∀ (l : List (String × α)), l.any (fun p => decide (p.1 = k)) = true →
      (replaceKey k v l).map (fun p => p.1) = l.map (fun p => p.1) := by
  intro l
  induction l with
  | nil => intro h; simp at h
  | cons p l ih =>
    intro h
    by_cases hp : p.1 = k
    · by_cases h2 : l.any (fun p => decide (p.1 = k)) = true
      · simp [replaceKey, hp, ih h2]
      · have hn : l.any (fun p => decide (p.1 = k)) = false := by
          revert h2; cases l.any (fun p => decide (p.1 = k)) <;> simp
        have : replaceKey k v l = l := by
          clear ih h h2
          induction l with
          | nil => rfl
          | cons q l ih2 =>
            simp only [List.any_cons, Bool.or_eq_false_iff, decide_eq_false_iff_not] at hn
            simp [replaceKey, hn.1, ih2 hn.2]
        simp [replaceKey, hp, this]
    · simp only [List.any_cons, decide_eq_true_eq, Bool.or_eq_true] at h
      rcases h with h | h
      · exact absurd h hp
      · simp [replaceKey, hp, ih h]

theorem keys_dictInsert {α : Type} (l : List (String × α)) (k : String) (v : α) :
    (dictInsert l k v).map (fun p => p.1) =
      if memB k (l.map (fun p => p.1)) then l.map (fun p => p.1)
      else l.map (fun p => p.1) ++ [k] := by
  have hmem : memB k (l.map (fun p => p.1)) = l.any (fun p => decide (p.1 = k)) := by
    induction l with
    | nil => rfl
    | cons p l ih =>
      simp only [memB, List.map_cons, List.any_cons] at *
      rw [ih]
  unfold dictInsert
  rw [hmem]
  by_cases h : l.any (fun p => decide (p.1 = k)) = true
  · simp [h, keys_replaceKey k v l h]
  · have hn : l.any (fun p => decide (p.1 = k)) = false := by
      revert h; cases l.any (fun p => decide (p.1 = k)) <;> simp
    simp [hn]

/-! ## C1: the `name` field of a ServerDef -/

/-- C1: the spec (and the repository's own tests,
`test_build_template_with_name_field` and friends) say that a ServerDef
carrying a `name` field is stored under the value of that field with the
field stripped.  The code stores every template under its template key and
never touches a `name` field: for the template entry
`{"name": "custom", "command": "echo"}` selected under key `"tpl"`, the
resolved set keeps key `"tpl"` (no `"custom"` key) and the stored value
still contains `"name"`. -/
theorem build_servers_json_keeps_template_key_and_name_field :
    build_servers_json ["tpl"]
        [("tpl", .obj [("name", .str "custom"), ("command", .str "echo")])] [] =
      [("tpl", .obj [("name", .str "custom"), ("command", .str "echo")])] ∧
    lookupStr "custom"
      (build_servers_json ["tpl"]
        [("tpl", .obj [("name", .str "custom"), ("command", .str "echo")])] []) = none ∧
    (∀ entries, lookupStr "tpl"
        (build_servers_json ["tpl"]
          [("tpl", .obj [("name", .str "custom"), ("command", .str "echo")])] []) =
          some (.obj entries) →
      lookupStr "name" entries = some (.str "custom")) := by
  refine ⟨rfl, rfl, ?_⟩
  intro entries h
  have : entries = [("name", Json.str "custom"), ("command", Json.str "echo")] := by
    have h' : some (Json.obj entries) =
        some (Json.obj [("name", Json.str "custom"), ("command", Json.str "echo")]) := by
      rw [← h]; rfl
    cases h'
    rfl
  rw [this]
  rfl

/-! ## C10: invalid target specifications -/

/-- C10: outside preview mode, a string target not ending in `.json` or
`.json5`, a mapping target without a `"write"` key, or a target of any
other type performs no write, reports an invalid target specification, and
returns false. -/
theorem write_target_invalid_spec_rejected (oracle : Oracle) (spec : TargetSpec)
    (servers : List (String × Json)) (h : invalidTarget spec = true) :
    write_target false oracle spec servers =
      ⟨false, [], true, none⟩ := by
  cases spec with
  | path s =>
    simp only [invalidTarget, Bool.not_eq_true'] at h
    simp [write_target, h]
  | cmd entries =>
    simp only [invalidTarget, Option.isNone_iff_eq_none] at h
    simp [write_target, h]
  | other => rfl

/-- C10 witness: the string target `"out.txt"` is rejected: no effects, an
invalid-specification report, result `false`. -/
theorem write_target_invalid_spec_rejected_witness :
    invalidTarget (.path "out.txt") = true ∧
    write_target false oracle0 (.path "out.txt") [] = ⟨false, [], true, none⟩ :=
  ⟨by decide, write_target_invalid_spec_rejected oracle0 (.path "out.txt") [] (by decide)⟩

/-! ## C6: shell-write success classification -/

/-- C6: a shell-write dispatch succeeds exactly when the exit code is zero
or the concatenation of captured stdout and stderr contains one of the
fixed success markers case-insensitively; on failure the reported detail is
the captured error stream if non-empty, else the captured standard
output. -/
theorem write_target_shell_success_classification (oracle : Oracle)
    (entries : List (String × String)) (servers : List (String × Json)) (c : String)
    (h : lookupStr "write" entries = some c) :
    ((write_target false oracle (.cmd entries) servers).ok = true ↔
      ((oracle.shell c).returncode = 0 ∨ ∃ p ∈ success_patterns,
        occursSub (lowerL p.data)
          (lowerL ((oracle.shell c).stdout ++ (oracle.shell c).stderr).data) = true)) ∧
    ((write_target false oracle (.cmd entries) servers).ok = false →
      (write_target false oracle (.cmd entries) servers).failureDetail =
        (if (oracle.shell c).stderr ≠ "" then some (oracle.shell c).stderr
         else if (oracle.shell c).stdout ≠ "" then some (oracle.shell c).stdout
         else none)) := by
  have hmsg : has_success_message
      ((oracle.shell c).stdout ++ (oracle.shell c).stderr) = true ↔
      ∃ p ∈ success_patterns,
        occursSub (lowerL p.data)
          (lowerL ((oracle.shell c).stdout ++ (oracle.shell c).stderr).data) = true := by
    simp [has_success_message, List.any_eq_true]
  by_cases hc : (decide ((oracle.shell c).returncode = 0) ||
      has_success_message ((oracle.shell c).stdout ++ (oracle.shell c).stderr)) = true
  · constructor
    · simp only [write_target, h, Bool.false_eq_true, if_false, hc, if_true]
      simp only [Bool.or_eq_true, decide_eq_true_eq] at hc
      simp only [true_iff]
      rcases hc with hc | hc
      · exact Or.inl hc
      · exact Or.inr (hmsg.mp hc)
    · simp only [write_target, h, Bool.false_eq_true, if_false, hc, if_true]
      intro hfalse
      simp at hfalse
  · constructor
    · simp only [write_target, h, Bool.false_eq_true, if_false, hc, if_true]
      simp only [Bool.or_eq_true, decide_eq_true_eq, not_or] at hc
      push_neg at hc
      constructor
      · intro hfalse; simp at hfalse
      · intro hor
        exfalso
        rcases hor with hor | hor
        · exact hc.1 hor
        · have : has_success_message
              ((oracle.shell c).stdout ++ (oracle.shell c).stderr) = true := hmsg.mpr hor
          rw [this] at hc
          exact absurd rfl hc.2
    · simp only [write_target, h, Bool.false_eq_true, if_false, hc, if_true]
      intro _
      trivial

/-- C6 witness: a command that exits with code 1 but prints
"Configuration saved successfully" to standard error is a successful
dispatch. -/
theorem write_target_shell_success_classification_witness :
    lookupStr "write" [("write", "metamcp import")] = some "metamcp import" ∧
    (oracle1.shell "metamcp import").returncode = 1 ∧
    (oracle1.shell "metamcp import").stderr = "Configuration saved successfully" ∧
    (write_target false oracle1 (.cmd [("write", "metamcp import")]) []).ok = true := by
  refine ⟨rfl, rfl, rfl, ?_⟩
  have h := write_target_shell_success_classification oracle1
    [("write", "metamcp import")] [] "metamcp import" rfl
  exact h.1.mpr (Or.inr ⟨"Configuration saved successfully", by decide, by decide⟩)

/-! ## C8: preview (dry-run) mode -/

/-- Dry-run effects of the loop are empty. -/
theorem process_target_dry_no_effects (force : Bool) (env : EnvF) (vb : Bool)
    (oracle : Oracle) (locked hashes : List (String × String)) (p : String)
    (names : List String) (tgt : TargetSpec) (templates base : List (String × Json)) :
    (process_target force true env vb oracle locked hashes p names tgt templates base).effects
      = [] := by
  unfold process_target
  by_cases hs : (build_servers_json names templates base).isEmpty = true
  · simp only [hs, if_true]
  · simp only [hs, Bool.false_eq_true, if_false]
    simp [write_target, apply_ite ProcResult.effects]

theorem runLoop_dry_no_effects (force : Bool) (env : EnvF) (vb : Bool) (oracle : Oracle)
    (locked : List (String × String)) (templates base : List (String × Json))
    (targets : List (String × TargetSpec)) :
    ∀ (profiles : List (String × List String)) (hashes : List (String × String)),
      (runLoop force true env vb oracle locked templates base targets profiles hashes).2.2.2
        = [] := by
  intro profiles
  induction profiles with
  | nil => intro hashes; rfl
  | cons pn rest ih =>
    intro hashes
    rcases pn with ⟨p, names⟩
    unfold runLoop
    cases h : lookupStr p targets with
    | none => simpa using ih hashes
    | some tgt =>
      simp only []
      rw [process_target_dry_no_effects, ih]
      rfl

/-- C8: in preview (dry-run) mode every dispatch performs no file write and
no process execution and reports success, and the lock file is never
written at the end of the run. -/
theorem dry_run_no_effects_no_lock_write (oracle : Oracle) (spec : TargetSpec)
    (servers : List (String × Json)) (cfg : Config) (env : EnvF) (vb force : Bool)
    (lock0 : Option (List (String × String))) :
    write_target true oracle spec servers = ⟨true, [], false, none⟩ ∧
    (run cfg env vb force true oracle lock0).lock = lock0 ∧
    (run cfg env vb force true oracle lock0).effects = [] := by
  refine ⟨rfl, ?_, ?_⟩
  · unfold run
    by_cases h1 : cfg.profiles.isEmpty <;> by_cases h2 : cfg.targets.isEmpty <;>
      simp [h1, h2]
  · unfold run
    by_cases h1 : cfg.profiles.isEmpty <;> by_cases h2 : cfg.targets.isEmpty <;>
      simp [h1, h2, runLoop_dry_no_effects]

/-! ## C7: resolution order and override -/

theorem newKeys_cons (templates : List (String × Json)) (n : String)
    (ns seen : List String) :
    newKeys templates (n :: ns) seen =
      if ((lookupStr n templates).isSome && !memB n seen) = true then
        n :: newKeys templates ns (n :: seen)
      else newKeys templates ns seen := rfl

theorem memB_cons (k n : String) (s : List String) :
    memB k (n :: s) = (decide (n = k) || memB k s) := by
  simp [memB, List.any_cons]

/-- `newKeys` only depends on the membership content of `seen`. -/
theorem newKeys_seen_congr (templates : List (String × Json)) :
    ∀ (names : List String) (s₁ s₂ : List String),
      (∀ x, memB x s₁ = memB x s₂) →
      newKeys templates names s₁ = newKeys templates names s₂ := by
  intro names
  induction names with
  | nil => intro s₁ s₂ _; rfl
  | cons n ns ih =>
    intro s₁ s₂ hs
    rw [newKeys_cons, newKeys_cons, hs n]
    by_cases hc : ((lookupStr n templates).isSome && !memB n s₂) = true
    · rw [if_pos hc, if_pos hc]
      exact congrArg (fun l => n :: l)
        (ih (n :: s₁) (n :: s₂) (fun x => by rw [memB_cons, memB_cons, hs x]))
    · rw [if_neg hc, if_neg hc]
      exact ih s₁ s₂ hs

/-- C7: the resolved server set looks up to: a selected template name that
exists among the templates wins (the template's value, a full replacement,
in particular over a colliding base entry), any other key falls back to the
base; and the key order is the base keys first, then the newly selected
template keys in selection-list order. -/
theorem build_servers_json_order_and_override (names : List String)
    (templates base : List (String × Json)) (k : String) :
    (lookupStr k (build_servers_json names templates base) =
      if (memB k names && (lookupStr k templates).isSome) = true
      then lookupStr k templates else lookupStr k base) ∧
    ((build_servers_json names templates base).map (fun p => p.1) =
      base.map (fun p => p.1) ++
        newKeys templates names (base.map (fun p => p.1))) := by
  constructor
  · induction names generalizing base with
    | nil => simp [build_servers_json, memB]
    | cons n ns ih =>
      unfold build_servers_json at *
      simp only [List.foldl_cons]
      cases ht : lookupStr n templates with
      | none =>
        dsimp only
        rw [ih base]
        by_cases hk : n = k
        · subst hk
          rw [show (lookupStr n templates).isSome = false by rw [ht]; rfl]
          simp
        · rw [show memB k (n :: ns) = memB k ns by
            rw [memB_cons]; simp [hk]]
      | some t =>
        dsimp only
        rw [ih (dictInsert base n t)]
        by_cases hk : n = k
        · subst hk
          have hsome : (lookupStr n templates).isSome = true := by rw [ht]; rfl
          rw [hsome, show memB n (n :: ns) = true by simp [memB_cons]]
          simp only [Bool.and_true, Bool.true_and]
          by_cases hns : memB n ns = true
          · simp [hns]
          · have hns' : memB n ns = false := by
              revert hns; cases memB n ns <;> simp
            rw [hns']
            simp only [Bool.false_eq_true, if_false, if_true]
            rw [lookupStr_dictInsert_self, ht]
        · rw [show memB k (n :: ns) = memB k ns by
            rw [memB_cons]; simp [hk]]
          rw [lookupStr_dictInsert_other base n k t (Ne.symm hk)]
  · induction names generalizing base with
    | nil => simp [build_servers_json, newKeys]
    | cons n ns ih =>
      unfold build_servers_json at *
      simp only [List.foldl_cons]
      cases ht : lookupStr n templates with
      | none =>
        dsimp only
        rw [ih base, newKeys_cons]
        rw [show (lookupStr n templates).isSome = false by rw [ht]; rfl]
        simp
      | some t =>
        dsimp only
        rw [ih (dictInsert base n t)]
        have hsome : (lookupStr n templates).isSome = true := by rw [ht]; rfl
        rw [newKeys_cons, hsome]
        by_cases hm : memB n (base.map (fun p => p.1)) = true
        · rw [keys_dictInsert, if_pos hm, hm]
          simp
        · have hm' : memB n (base.map (fun p => p.1)) = false := by
            revert hm; cases memB n (base.map (fun p => p.1)) <;> simp
          rw [keys_dictInsert, if_neg (by rw [hm']; simp), hm']
          simp only [Bool.not_false, Bool.and_true, if_true]
          rw [newKeys_seen_congr templates ns ((base.map (fun p => p.1)) ++ [n])
            (n :: (base.map (fun p => p.1)))
            (fun x => by
              rw [memB_cons]
              simp [memB, List.any_append, Bool.or_comm])]
          simp

/-! ## Scanner lemmas for `substitute_env_vars` -/

theorem goSub_nil (env : EnvF) (vb : Bool) (f : Nat) : goSub env vb f [] = ([], [], []) := by
  cases f <;> rfl

theorem goSub_cons (env : EnvF) (vb : Bool) (f : Nat) (c : Char) (cs : List Char) :
    goSub env vb (f + 1) (c :: cs) =
      if (decide (c = '$') && decide (cs.head? = some '{')) = true then
        match scanOpen cs.tail with
        | some (name, cs') =>
          let nm := String.mk name
          match env nm with
          | some v =>
            let r := goSub env vb f cs'
            (v.data ++ r.1, r.2.1,
             (if vb then [(nm, String.mk (redactDisplay name v.data))] else []) ++ r.2.2)
          | none =>
            let r := goSub env vb f cs'
            ('$' :: '{' :: name ++ '}' :: r.1, nm :: r.2.1, r.2.2)
        | none =>
          let r := goSub env vb f cs
          (c :: r.1, r.2.1, r.2.2)
      else
        let r := goSub env vb f cs
        (c :: r.1, r.2.1, r.2.2) := rfl

theorem scanOpen_some_length (cs name cs' : List Char)
    (h : scanOpen cs = some (name, cs')) : cs'.length < cs.length := by
  unfold scanOpen at h
  rcases ht : cs.takeWhile (fun c => !decide (c = '}')) with _ | ⟨n, name'⟩ <;>
    rcases hd : cs.dropWhile (fun c => !decide (c = '}')) with _ | ⟨d, rest⟩ <;>
      rw [ht, hd] at h <;> dsimp only at h
  · exact absurd h (by simp)
  · exact absurd h (by simp)
  · exact absurd h (by simp)
  have hlen : cs.length = (n :: name').length + (d :: rest).length := by
    conv_lhs => rw [← List.takeWhile_append_dropWhile
      (p := fun c => !decide (c = '}')) (l := cs)]
    rw [ht, hd, List.length_append]
  simp only [Option.some.injEq, Prod.mk.injEq] at h
  rw [← h.2]
  simp only [List.length_cons] at hlen
  omega

theorem takeWhile_not_brace (t : List Char) :
    ∀ (name : List Char), (∀ c ∈ name, ¬ c = '}') →
      (name ++ '}' :: t).takeWhile (fun c => !decide (c = '}')) = name := by
  intro name
  induction name with
  | nil => intro _; simp [List.takeWhile]
  | cons n name' ih =>
    intro h
    have hn : ¬ n = '}' := h n (by simp)
    simp only [List.cons_append, List.takeWhile_cons]
    rw [show (!decide (n = '}')) = true by simp [hn]]
    simp only [if_true]
    rw [ih (fun c hc => h c (by simp [hc]))]

theorem dropWhile_not_brace (t : List Char) :
    ∀ (name : List Char), (∀ c ∈ name, ¬ c = '}') →
      (name ++ '}' :: t).dropWhile (fun c => !decide (c = '}')) = '}' :: t := by
  intro name
  induction name with
  | nil => intro _; simp [List.dropWhile]
  | cons n name' ih =>
    intro h
    have hn : ¬ n = '}' := h n (by simp)
    simp only [List.cons_append, List.dropWhile_cons]
    rw [show (!decide (n = '}')) = true by simp [hn]]
    simp only [if_true]
    exact ih (fun c hc => h c (by simp [hc]))

theorem scanOpen_renders (name t : List Char) (hne : name ≠ [])
    (hnb : ∀ c ∈ name, ¬ c = '}') : scanOpen (name ++ '}' :: t) = some (name, t) := by
  unfold scanOpen
  rw [takeWhile_not_brace t name hnb, dropWhile_not_brace t name hnb]
  cases name with
  | nil => exact absurd rfl hne
  | cons n name' => rfl

theorem goSub_fuel (env : EnvF) (vb : Bool) :
    ∀ (f g : Nat) (cs : List Char), cs.length ≤ f → cs.length ≤ g →
      goSub env vb f cs = goSub env vb g cs := by
  intro f
  induction f with
  | zero =>
    intro g cs hf _
    have : cs = [] := List.length_eq_zero.mp (Nat.le_zero.mp hf)
    subst this
    rw [goSub_nil, goSub_nil]
  | succ f ih =>
    intro g cs hf hg
    cases cs with
    | nil => rw [goSub_nil, goSub_nil]
    | cons c cs₀ =>
      cases g with
      | zero => simp at hg
      | succ g =>
        simp only [List.length_cons] at hf hg
        rw [goSub_cons, goSub_cons]
        by_cases hc : (decide (c = '$') && decide (cs₀.head? = some '{')) = true
        · rw [if_pos hc, if_pos hc]
          rcases hso : scanOpen cs₀.tail with _ | ⟨name, cs'⟩
          · dsimp only
            rw [ih g cs₀ (by omega) (by omega)]
          · have hlt : cs'.length < cs₀.tail.length :=
              scanOpen_some_length cs₀.tail name cs' hso
            have htl : cs₀.tail.length ≤ cs₀.length := by
              cases cs₀ <;> simp
            dsimp only
            rcases he : env (String.mk name) with _ | v
            · dsimp only
              rw [ih g cs' (by omega) (by omega)]
            · dsimp only
              rw [ih g cs' (by omega) (by omega)]
        · rw [if_neg hc, if_neg hc]
          dsimp only
          rw [ih g cs₀ (by omega) (by omega)]

theorem goSub_lit_skip (env : EnvF) (vb : Bool) :
    ∀ (s : List Char) (t : List Char) (f g : Nat),
      occursSub ['$', '{'] s = false →
      (t = [] ∨ t.head? = some '$') →
      s.length + t.length ≤ f → t.length ≤ g →
      goSub env vb f (s ++ t) =
        (s ++ (goSub env vb g t).1, (goSub env vb g t).2) := by
  intro s
  induction s with
  | nil =>
    intro t f g _ _ hf hg
    simp only [List.nil_append]
    rw [goSub_fuel env vb f g t (by simpa using hf) hg]
  | cons c s' ih =>
    intro t f g hocc hbd hf hg
    simp only [occursSub, Bool.or_eq_false_iff] at hocc
    obtain ⟨hstart, hocc'⟩ := hocc
    cases f with
    | zero => simp at hf
    | succ f =>
      simp only [List.cons_append, List.length_cons] at hf ⊢
      rw [goSub_cons]
      have hcond : (decide (c = '$') && decide ((s' ++ t).head? = some '{')) = false := by
        by_cases hc : c = '$'
        · subst hc
          have h2 : startsWithL ['{'] s' = false := by
            simpa [startsWithL] using hstart
          cases s' with
          | nil =>
            rcases hbd with h | h
            · subst h; simp
            · simp [h]
          | cons d s'' =>
            have hd : ¬ d = '{' := by
              by_contra hdd
              subst hdd
              simp [startsWithL] at h2
            simp [hd]
        · simp [hc]
      rw [if_neg (by rw [hcond]; simp)]
      dsimp only
      rw [ih t f g hocc' hbd (by omega) hg]

theorem goSub_var_step (env : EnvF) (vb : Bool) (n t : List Char) (f g : Nat)
    (hne : n ≠ []) (hnb : ∀ c ∈ n, ¬ c = '}')
    (hf : n.length + t.length + 3 ≤ f) (hg : t.length ≤ g) :
    goSub env vb f ('$' :: '{' :: (n ++ '}' :: t)) =
      match env (String.mk n) with
      | some v =>
        (v.data ++ (goSub env vb g t).1, (goSub env vb g t).2.1,
         (if vb then [(String.mk n, String.mk (redactDisplay n v.data))] else []) ++
           (goSub env vb g t).2.2)
      | none =>
        ('$' :: '{' :: n ++ '}' :: (goSub env vb g t).1,
         String.mk n :: (goSub env vb g t).2.1, (goSub env vb g t).2.2) := by
  cases f with
  | zero => omega
  | succ f =>
    rw [goSub_cons]
    rw [if_pos (by simp)]
    have htail : ('{' :: (n ++ '}' :: t)).tail = n ++ '}' :: t := rfl
    rw [show ('{' :: (n ++ '}' :: t)).tail = n ++ '}' :: t from rfl]
    rw [scanOpen_renders n t hne hnb]
    dsimp only
    have hlen : n.length + t.length + 2 ≤ f + 1 := by omega
    rcases he : env (String.mk n) with _ | v
    · dsimp only
      rw [goSub_fuel env vb f g t (by omega) hg]
    · dsimp only
      rw [goSub_fuel env vb f g t (by omega) hg]

/-! ## C5: the placeholder substitution contract -/

theorem renderFrags_cons (fr : Frag) (fs : List Frag) :
    renderFrags (fr :: fs) = renderFrag fr ++ renderFrags fs := rfl

theorem renderFrags_head_var (fs : List Frag) :
    (∀ s rest, fs ≠ .lit s :: rest) →
    renderFrags fs = [] ∨ (renderFrags fs).head? = some '$' := by
  cases fs with
  | nil => intro _; exact Or.inl rfl
  | cons fr rest =>
    intro h
    cases fr with
    | lit s => exact absurd rfl (h s rest)
    | var n => exact Or.inr rfl

/-- C5: on any well-formed decomposition of the input into literal text and
`${NAME}` placeholders, substitution replaces each bound placeholder by the
raw environment value (inserted as a string fragment), keeps each unbound
placeholder literally while recording its name as missing (in order), and
logs exactly the substituted variables (redacted for display only). -/
theorem substitute_env_vars_placeholder_contract (env : EnvF) (vb : Bool) :
    ∀ (fs : List Frag), fragsWF fs = true →
      substStr env vb (String.mk (renderFrags fs)) =
        (concatAll (fs.map (substFrag env)), missingOf env fs, logOf env vb fs) := by
  have main : ∀ (fs : List Frag), fragsWF fs = true →
      goSub env vb (renderFrags fs).length (renderFrags fs) =
        (concatAll (fs.map (substFrag env)), missingOf env fs, logOf env vb fs) := by
    intro fs
    induction fs with
    | nil =>
      intro _
      rw [show renderFrags [] = [] from rfl, goSub_nil]
      rfl
    | cons fr rest ih =>
      intro h
      cases fr with
      | lit s =>
        have h1 : occursSub ['$', '{'] s = false := by
          have := h
          unfold fragsWF at this
          simp only [Bool.and_eq_true, Bool.not_eq_true'] at this
          exact this.1.1
        have hshape : ∀ s' rest', rest ≠ .lit s' :: rest' := by
          intro s' rest' hcon
          unfold fragsWF at h
          subst hcon
          simp at h
        have h3 : fragsWF rest = true := by
          unfold fragsWF at h
          simp only [Bool.and_eq_true] at h
          exact h.2
        rw [renderFrags_cons]
        dsimp only [renderFrag]
        rw [goSub_lit_skip env vb s (renderFrags rest)
          ((s ++ renderFrags rest).length) (renderFrags rest).length
          h1 (renderFrags_head_var rest hshape)
          (by simp) (Nat.le_refl _)]
        rw [ih h3]
        rfl
      | var n =>
        have hwf : (!n.isEmpty && !n.any (fun c => decide (c = '}'))
            && fragsWF rest) = true := by
          simpa [fragsWF] using h
        simp only [Bool.and_eq_true, Bool.not_eq_true'] at hwf
        have hne : n ≠ [] := by
          intro hcon
          rw [hcon] at hwf
          simp [List.isEmpty] at hwf
        have hnb : ∀ c ∈ n, ¬ c = '}' := by
          intro c hc hcon
          have := hwf.1.2
          rw [List.any_eq_false] at this
          exact absurd (by simp [hcon]) (this c hc)
        have h3 : fragsWF rest = true := hwf.2
        have hrender : renderFrags (.var n :: rest) =
            '$' :: '{' :: (n ++ '}' :: renderFrags rest) := by
          rw [renderFrags_cons]
          simp [renderFrag]
        rw [hrender]
        rw [goSub_var_step env vb n (renderFrags rest)
          ('$' :: '{' :: (n ++ '}' :: renderFrags rest)).length
          (renderFrags rest).length hne hnb (by simp; omega) (Nat.le_refl _)]
        rcases he : env (String.mk n) with _ | v
        · dsimp only
          rw [ih h3]
          simp [List.map_cons, concatAll, substFrag, missingOf, logOf, he]
        · dsimp only
          rw [ih h3]
          simp [List.map_cons, concatAll, substFrag, missingOf, logOf, he]
  intro fs h
  unfold substStr
  exact main fs h

/-- C5 witness: for `"run ${HOME}/bin ${MISSING}"` under the environment
binding only `HOME=/home/u`, the bound placeholder is replaced by the raw
value, the unbound one stays literal and `MISSING` is recorded. -/
theorem substitute_env_vars_placeholder_contract_witness :
    fragsWF [.lit "run ".data, .var "HOME".data, .lit "/bin ".data,
        .var "MISSING".data] = true ∧
    substStr env1 true (String.mk (renderFrags [.lit "run ".data, .var "HOME".data,
        .lit "/bin ".data, .var "MISSING".data])) =
      (concatAll ([Frag.lit "run ".data, .var "HOME".data, .lit "/bin ".data,
          .var "MISSING".data].map (substFrag env1)),
       missingOf env1 [.lit "run ".data, .var "HOME".data, .lit "/bin ".data,
          .var "MISSING".data],
       logOf env1 true [.lit "run ".data, .var "HOME".data, .lit "/bin ".data,
          .var "MISSING".data]) ∧
    String.mk (renderFrags [Frag.lit "run ".data, .var "HOME".data, .lit "/bin ".data,
        .var "MISSING".data]) = "run ${HOME}/bin ${MISSING}" ∧
    missingOf env1 [Frag.lit "run ".data, .var "HOME".data, .lit "/bin ".data,
        .var "MISSING".data] = ["MISSING"] ∧
    concatAll ([Frag.lit "run ".data, .var "HOME".data, .lit "/bin ".data,
        .var "MISSING".data].map (substFrag env1)) = "run /home/u/bin ${MISSING}".data :=
  ⟨by decide,
   substitute_env_vars_placeholder_contract env1 true _ (by decide),
   by decide, by decide, by decide⟩

/-! ## C9: verbose mode changes only the log -/

theorem goSub_vb_irrel (env : EnvF) (v₁ v₂ : Bool) :
    ∀ (f : Nat) (cs : List Char),
      (goSub env v₁ f cs).1 = (goSub env v₂ f cs).1 ∧
      (goSub env v₁ f cs).2.1 = (goSub env v₂ f cs).2.1 := by
  intro f
  induction f with
  | zero =>
    intro cs
    cases cs <;> exact ⟨rfl, rfl⟩
  | succ f ih =>
    intro cs
    cases cs with
    | nil => exact ⟨rfl, rfl⟩
    | cons c cs₀ =>
      rw [goSub_cons, goSub_cons]
      by_cases hc : (decide (c = '$') && decide (cs₀.head? = some '{')) = true
      · rw [if_pos hc, if_pos hc]
        rcases hso : scanOpen cs₀.tail with _ | ⟨name, cs'⟩
        · dsimp only
          exact ⟨congrArg (fun l => c :: l) (ih cs₀).1, (ih cs₀).2⟩
        · dsimp only
          rcases he : env (String.mk name) with _ | v
          · dsimp only
            exact ⟨by rw [(ih cs').1], by rw [(ih cs').2]⟩
          · dsimp only
            exact ⟨by rw [(ih cs').1], (ih cs').2⟩
      · rw [if_neg hc, if_neg hc]
        dsimp only
        exact ⟨congrArg (fun l => c :: l) (ih cs₀).1, (ih cs₀).2⟩

mutual
theorem subst_vb_val (env : EnvF) (v₁ v₂ : Bool) :
    ∀ (j : Json),
      (substitute_env_vars env v₁ j).1 = (substitute_env_vars env v₂ j).1 ∧
      (substitute_env_vars env v₁ j).2.1 = (substitute_env_vars env v₂ j).2.1
  | .null => ⟨rfl, rfl⟩
  | .bool b => ⟨rfl, rfl⟩
  | .num n => ⟨rfl, rfl⟩
  | .str s =>
    have h := goSub_vb_irrel env v₁ v₂ s.data.length s.data
    ⟨by simp only [substitute_env_vars, substStr]; rw [h.1],
     by simp only [substitute_env_vars, substStr]; rw [h.2]⟩
  | .arr xs =>
    have h := subst_vb_arr env v₁ v₂ xs
    ⟨by simp only [substitute_env_vars]; rw [h.1],
     by simp only [substitute_env_vars]; rw [h.2]⟩
  | .obj l =>
    have h := subst_vb_entries env v₁ v₂ l
    ⟨by simp only [substitute_env_vars]; rw [h.1],
     by simp only [substitute_env_vars]; rw [h.2]⟩

theorem subst_vb_arr (env : EnvF) (v₁ v₂ : Bool) :
    ∀ (xs : List Json),
      (substArr env v₁ xs).1 = (substArr env v₂ xs).1 ∧
      (substArr env v₁ xs).2.1 = (substArr env v₂ xs).2.1
  | [] => ⟨rfl, rfl⟩
  | x :: xs =>
    have h1 := subst_vb_val env v₁ v₂ x
    have h2 := subst_vb_arr env v₁ v₂ xs
    ⟨by simp only [substArr]; rw [h1.1, h2.1],
     by simp only [substArr]; rw [h1.2, h2.2]⟩

theorem subst_vb_entries (env : EnvF) (v₁ v₂ : Bool) :
    ∀ (l : List (String × Json)),
      (substEntries env v₁ l).1 = (substEntries env v₂ l).1 ∧
      (substEntries env v₁ l).2.1 = (substEntries env v₂ l).2.1
  | [] => ⟨rfl, rfl⟩
  | (k, v) :: l =>
    have h1 := subst_vb_val env v₁ v₂ v
    have h2 := subst_vb_entries env v₁ v₂ l
    ⟨by simp only [substEntries]; rw [h1.1, h2.1],
     by simp only [substEntries]; rw [h1.2, h2.2]⟩
end

/-- C9: the substituted tree and the recorded missing-variable names are
identical whether or not verbose diagnostic mode is active; the sensitive
redaction affects only the verbose display log, never the value inserted
into the output tree. -/
theorem verbose_redaction_does_not_affect_output (env : EnvF) (v₁ v₂ : Bool)
    (data : Json) :
    (substitute_env_vars env v₁ data).1 = (substitute_env_vars env v₂ data).1 ∧
    (substitute_env_vars env v₁ data).2.1 = (substitute_env_vars env v₂ data).2.1 :=
  subst_vb_val env v₁ v₂ data

/-! ## Lock-file bookkeeping lemmas (C2/C3) -/

theorem toHex64_length (n : Nat) : (toHex64 n).length = 64 := by
  simp [toHex64]

theorem hash_json_data_ne_empty (j : Json) : hash_json_data j ≠ "" := by
  intro h
  have hd : toHex64 (hashNat j) = ([] : List Char) := congrArg String.data h
  have h3 := congrArg List.length hd
  rw [toHex64_length] at h3
  simp at h3

theorem process_target_hashes (force dryRun : Bool) (env : EnvF) (vb : Bool)
    (oracle : Oracle) (locked hashes : List (String × String)) (p : String)
    (names : List String) (tgt : TargetSpec) (templates base : List (String × Json)) :
    (process_target force dryRun env vb oracle locked hashes p names tgt templates base).hashes =
      if (build_servers_json names templates base).isEmpty then hashes
      else dictInsert hashes p (builtHash env vb names templates base) := by
  unfold process_target
  by_cases hs : (build_servers_json names templates base).isEmpty = true
  · simp [hs]
  · simp only [hs, Bool.false_eq_true, if_false, if_neg]
    simp [apply_ite ProcResult.hashes, builtHash, builtServers]

theorem process_target_skip (dryRun : Bool) (env : EnvF) (vb : Bool)
    (oracle : Oracle) (locked hashes : List (String × String)) (p : String)
    (names : List String) (tgt : TargetSpec) (templates base : List (String × Json))
    (hs : (build_servers_json names templates base).isEmpty = false)
    (hl : lookupStr p locked = some (builtHash env vb names templates base)) :
    process_target false dryRun env vb oracle locked hashes p names tgt templates base =
      ⟨true, dictInsert hashes p (builtHash env vb names templates base),
       .unchanged, 0, []⟩ := by
  unfold process_target
  simp only [hs, Bool.false_eq_true, if_false]
  rw [hl]
  dsimp only
  have hbne : builtHash env vb names templates base ≠ "" := hash_json_data_ne_empty _
  rw [if_pos hbne]
  rw [show decide (builtHash env vb names templates base ≠ hash_json_data
      (.obj (substEntries env vb (build_servers_json names templates base)).1)) = false from by
    simp [builtHash, builtServers]]
  simp [builtHash, builtServers]

theorem runLoop_hashes (force dryRun : Bool) (env : EnvF) (vb : Bool) (oracle : Oracle)
    (locked : List (String × String)) (templates base : List (String × Json))
    (targets : List (String × TargetSpec)) :
    ∀ (profiles : List (String × List String)) (hashes : List (String × String)),
      (runLoop force dryRun env vb oracle locked templates base targets profiles hashes).2.1 =
        pureHashes env vb templates base targets profiles hashes := by
  intro profiles
  induction profiles with
  | nil => intro hashes; rfl
  | cons pn rest ih =>
    intro hashes
    rcases pn with ⟨p, names⟩
    unfold runLoop pureHashes
    cases hlt : lookupStr p targets with
    | none =>
      dsimp only
      exact ih hashes
    | some tgt =>
      dsimp only
      rw [ih, process_target_hashes]
      by_cases hs : (build_servers_json names templates base).isEmpty = true <;>
        simp [hs]

theorem memB_of_mem (p : String) (names : List String)
    (profiles : List (String × List String)) (h : (p, names) ∈ profiles) :
    memB p (profiles.map (fun q => q.1)) = true := by
  simp only [memB, List.any_eq_true, decide_eq_true_eq]
  exact ⟨p, List.mem_map_of_mem (fun q => q.1) h, rfl⟩

theorem lookup_pureHashes_not_mem (env : EnvF) (vb : Bool)
    (templates base : List (String × Json)) (targets : List (String × TargetSpec))
    (p : String) :
    ∀ (profiles : List (String × List String)) (hashes : List (String × String)),
      memB p (profiles.map (fun q => q.1)) = false →
      lookupStr p (pureHashes env vb templates base targets profiles hashes) =
        lookupStr p hashes := by
  intro profiles
  induction profiles with
  | nil => intro hashes _; rfl
  | cons qn rest ih =>
    intro hashes hm
    rcases qn with ⟨q, ns⟩
    simp only [List.map_cons, memB, List.any_cons, Bool.or_eq_false_iff,
      decide_eq_false_iff_not] at hm
    have hm' : memB p (rest.map (fun q => q.1)) = false := by
      simp only [memB]
      exact hm.2
    unfold pureHashes
    cases hlt : lookupStr q targets with
    | none => exact ih hashes hm'
    | some tgt =>
      dsimp only
      by_cases hs : (build_servers_json ns templates base).isEmpty = true
      · simp only [hs, if_true]
        exact ih hashes hm'
      · simp only [hs, Bool.false_eq_true, if_false]
        rw [ih _ hm']
        exact lookupStr_dictInsert_other hashes q p _ (Ne.symm hm.1)

theorem lookup_pureHashes_mem (env : EnvF) (vb : Bool)
    (templates base : List (String × Json)) (targets : List (String × TargetSpec))
    (p : String) (names : List String) :
    ∀ (profiles : List (String × List String)) (hashes : List (String × String)),
      keysNodupB (profiles.map (fun q => q.1)) = true →
      (p, names) ∈ profiles →
      (lookupStr p targets).isSome = true →
      (build_servers_json names templates base).isEmpty = false →
      lookupStr p (pureHashes env vb templates base targets profiles hashes) =
        some (builtHash env vb names templates base) := by
  intro profiles
  induction profiles with
  | nil => intro hashes _ hm; exact absurd hm (by simp)
  | cons qn rest ih =>
    intro hashes hnd hm htgt hsv
    rcases qn with ⟨q, ns⟩
    simp only [List.map_cons, keysNodupB, Bool.and_eq_true, Bool.not_eq_true'] at hnd
    obtain ⟨hnd1, hnd2⟩ := hnd
    rcases List.mem_cons.mp hm with hhd | htl
    · have hpair := hhd
      simp only [Prod.mk.injEq] at hpair
      obtain ⟨hq, hns⟩ := hpair
      subst hq
      subst hns
      unfold pureHashes
      cases hlt : lookupStr p targets with
      | none => rw [hlt] at htgt; simp at htgt
      | some tgt =>
        dsimp only
        simp only [hsv, Bool.false_eq_true, if_false]
        rw [lookup_pureHashes_not_mem env vb templates base targets p rest _
          (by simpa [memB] using hnd1)]
        exact lookupStr_dictInsert_self hashes p _
    · have hq : ¬ q = p := by
        intro hqp
        subst hqp
        have hmm := memB_of_mem q names rest htl
        simp only [memB] at hmm
        rw [hmm] at hnd1
        simp at hnd1
      unfold pureHashes
      cases hlt : lookupStr q targets with
      | none => exact ih hashes hnd2 htl htgt hsv
      | some tgt =>
        dsimp only
        by_cases hs2 : (build_servers_json ns templates base).isEmpty = true
        · simp only [hs2, if_true]
          exact ih hashes hnd2 htl htgt hsv
        · simp only [hs2, Bool.false_eq_true, if_false]
          exact ih _ hnd2 htl htgt hsv

theorem pureHashes_nil (env : EnvF) (vb : Bool)
    (templates base : List (String × Json)) (targets : List (String × TargetSpec)) :
    ∀ (profiles : List (String × List String)) (hashes : List (String × String)),
      pureHashes env vb templates base targets profiles hashes = [] →
      hashes = [] ∧
      (∀ p names, (p, names) ∈ profiles → (lookupStr p targets).isSome = true →
        (build_servers_json names templates base).isEmpty = true) := by
  intro profiles
  induction profiles with
  | nil =>
    intro hashes h
    exact ⟨h, fun p names hm => absurd hm (by simp)⟩
  | cons qn rest ih =>
    intro hashes h
    rcases qn with ⟨q, ns⟩
    unfold pureHashes at h
    cases hlt : lookupStr q targets with
    | none =>
      rw [hlt] at h
      dsimp only at h
      obtain ⟨h1, h2⟩ := ih hashes h
      refine ⟨h1, fun p names hm htgt => ?_⟩
      rcases List.mem_cons.mp hm with hhd | htl
      · have hpair := hhd
        simp only [Prod.mk.injEq] at hpair
        obtain ⟨hq, hns⟩ := hpair
        subst hq
        rw [hlt] at htgt
        simp at htgt
      · exact h2 p names htl htgt
    | some tgt =>
      rw [hlt] at h
      dsimp only at h
      by_cases hs : (build_servers_json ns templates base).isEmpty = true
      · rw [if_pos hs] at h
        obtain ⟨h1, h2⟩ := ih hashes h
        refine ⟨h1, fun p names hm htgt => ?_⟩
        rcases List.mem_cons.mp hm with hhd | htl
        · have hpair := hhd
          simp only [Prod.mk.injEq] at hpair
          obtain ⟨hq, hns⟩ := hpair
          subst hq
          subst hns
          exact hs
        · exact h2 p names htl htgt
      · rw [if_neg hs] at h
        obtain ⟨h1, _⟩ := ih _ h
        exact absurd h1 (dictInsert_ne_nil hashes q _)

theorem runLoop_skip_all (env : EnvF) (vb : Bool) (oracle : Oracle)
    (locked : List (String × String)) (templates base : List (String × Json))
    (targets : List (String × TargetSpec)) :
    ∀ (profiles : List (String × List String)) (hashes : List (String × String)),
      (∀ p names, (p, names) ∈ profiles → (lookupStr p targets).isSome = true →
        (build_servers_json names templates base).isEmpty = false →
        lookupStr p locked = some (builtHash env vb names templates base)) →
      (runLoop false false env vb oracle locked templates base targets profiles
          hashes).2.2.1 = 0 ∧
      (∀ po ∈ (runLoop false false env vb oracle locked templates base targets profiles
          hashes).1,
        po.2 = RunOutcome.noTarget ∨ po.2 = RunOutcome.noServers ∨
          po.2 = RunOutcome.unchanged) := by
  intro profiles
  induction profiles with
  | nil => intro hashes _; exact ⟨rfl, fun po hpo => absurd hpo (List.not_mem_nil po)⟩
  | cons qn rest ih =>
    intro hashes hl
    rcases qn with ⟨q, ns⟩
    have hl' : ∀ p names, (p, names) ∈ rest → (lookupStr p targets).isSome = true →
        (build_servers_json names templates base).isEmpty = false →
        lookupStr p locked = some (builtHash env vb names templates base) :=
      fun p names hm => hl p names (List.mem_cons_of_mem _ hm)
    unfold runLoop
    cases hlt : lookupStr q targets with
    | none =>
      dsimp only
      obtain ⟨ha, hb⟩ := ih hashes hl'
      refine ⟨ha, fun po hpo => ?_⟩
      rcases List.mem_cons.mp hpo with hhd | htl
      · subst hhd; exact Or.inl rfl
      · exact hb po htl
    | some tgt =>
      dsimp only
      by_cases hs : (build_servers_json ns templates base).isEmpty = true
      · have hpt : process_target false false env vb oracle locked hashes q ns tgt
            templates base = ⟨true, hashes, .noServers, 0, []⟩ := by
          unfold process_target
          simp [hs]
        rw [hpt]
        obtain ⟨ha, hb⟩ := ih hashes hl'
        dsimp only
        refine ⟨by rw [ha], fun po hpo => ?_⟩
        rcases List.mem_cons.mp hpo with hhd | htl
        · subst hhd; exact Or.inr (Or.inl rfl)
        · exact hb po htl
      · have hs' : (build_servers_json ns templates base).isEmpty = false := by
          revert hs; cases (build_servers_json ns templates base).isEmpty <;> simp
        have hlq : lookupStr q locked = some (builtHash env vb ns templates base) :=
          hl q ns (List.mem_cons_self _ _) (by rw [hlt]; rfl) hs'
        rw [process_target_skip false env vb oracle locked hashes q ns tgt templates base
          hs' hlq]
        obtain ⟨ha, hb⟩ := ih (dictInsert hashes q (builtHash env vb ns templates base)) hl'
        dsimp only
        refine ⟨by rw [ha], fun po hpo => ?_⟩
        rcases List.mem_cons.mp hpo with hhd | htl
        · subst hhd; exact Or.inr (Or.inr rfl)
        · exact hb po htl

theorem run_lock_eq (cfg : Config) (env : EnvF) (vb force : Bool) (oracle : Oracle)
    (lock0 : Option (List (String × String)))
    (h1 : cfg.profiles.isEmpty = false) (h2 : cfg.targets.isEmpty = false) :
    (run cfg env vb force false oracle lock0).lock =
      if (pureHashes env vb cfg.templates cfg.mcpServers cfg.targets
          cfg.profiles []).isEmpty then lock0
      else some (pureHashes env vb cfg.templates cfg.mcpServers cfg.targets
          cfg.profiles []) := by
  unfold run
  simp [h1, h2, runLoop_hashes]

theorem run_dispatches_eq (cfg : Config) (env : EnvF) (vb force : Bool) (oracle : Oracle)
    (lock0 : Option (List (String × String)))
    (h1 : cfg.profiles.isEmpty = false) (h2 : cfg.targets.isEmpty = false) :
    (run cfg env vb force false oracle lock0).dispatches =
      (runLoop force false env vb oracle (lock0.getD []) cfg.templates cfg.mcpServers
        cfg.targets cfg.profiles []).2.2.1 := by
  unfold run
  simp [h1, h2]

theorem run_outcomes_eq (cfg : Config) (env : EnvF) (vb force : Bool) (oracle : Oracle)
    (lock0 : Option (List (String × String)))
    (h1 : cfg.profiles.isEmpty = false) (h2 : cfg.targets.isEmpty = false) :
    (run cfg env vb force false oracle lock0).outcomes =
      (runLoop force false env vb oracle (lock0.getD []) cfg.templates cfg.mcpServers
        cfg.targets cfg.profiles []).1 := by
  unfold run
  simp [h1, h2]

/-! ## C2: the hash saved to the lock file -/

/-- C2 counterexample: with the single profile `p = ["t"]` whose target is
an invalid specification, the dispatch fails (`dispatched false`), yet the
lock file saved at the end of the pass records `p`'s freshly built hash —
refuting the claim that a profile whose target dispatch fails does not get
its new hash recorded. -/
theorem failed_dispatch_hash_still_recorded :
    (run ⟨[], [("t", .obj [("command", .str "x")])], [("p", ["t"])], [("p", .other)]⟩
        env0 false false false oracle0 none).outcomes =
      [("p", .dispatched false)] ∧
    (run ⟨[], [("t", .obj [("command", .str "x")])], [("p", ["t"])], [("p", .other)]⟩
        env0 false false false oracle0 none).lock =
      some [("p", builtHash env0 false ["t"] [("t", .obj [("command", .str "x")])] [])] :=
  ⟨rfl, rfl⟩

theorem lock_records_built_hash (cfg : Config) (env : EnvF)
    (vb force : Bool) (oracle : Oracle) (lock0 : Option (List (String × String)))
    (p : String) (names : List String)
    (hnd : keysNodupB (cfg.profiles.map (fun q => q.1)) = true)
    (hmem : (p, names) ∈ cfg.profiles)
    (htgt : (lookupStr p cfg.targets).isSome = true)
    (hsv : (build_servers_json names cfg.templates cfg.mcpServers).isEmpty = false) :
    lookupStr p ((run cfg env vb force false oracle lock0).lock.getD []) =
      some (builtHash env vb names cfg.templates cfg.mcpServers) := by
  have h1 : cfg.profiles.isEmpty = false := by
    cases hcp : cfg.profiles with
    | nil => rw [hcp] at hmem; exact absurd hmem (List.not_mem_nil _)
    | cons a l => rfl
  have h2 : cfg.targets.isEmpty = false := by
    cases hct : cfg.targets with
    | nil => rw [hct] at htgt; exact absurd htgt (by simp [lookupStr])
    | cons a l => rfl
  rw [run_lock_eq cfg env vb force oracle lock0 h1 h2]
  have hlook := lookup_pureHashes_mem env vb cfg.templates cfg.mcpServers cfg.targets
    p names cfg.profiles [] hnd hmem htgt hsv
  by_cases hE : (pureHashes env vb cfg.templates cfg.mcpServers cfg.targets
      cfg.profiles []).isEmpty = true
  · exfalso
    rw [List.isEmpty_iff.mp hE] at hlook
    exact absurd hlook (by simp [lookupStr])
  · rw [if_neg (by rw [show (pureHashes env vb cfg.templates cfg.mcpServers cfg.targets
        cfg.profiles []).isEmpty = false from by
        revert hE; cases (pureHashes env vb cfg.templates cfg.mcpServers cfg.targets
          cfg.profiles []).isEmpty <;> simp]; simp)]
    rw [Option.getD_some]
    exact hlook

/-- C2 (amended): the hash recorded into the lock mapping — and persisted at
the end of a non-preview pass — is the digest of the profile's last *built*
configuration, recorded before dispatch: every profile with a target and a
nonempty resolved server set has its new hash in the saved lock file,
whether or not its dispatch succeeded. -/
theorem built_hash_recorded_in_saved_lock (cfg : Config) (env : EnvF)
    (vb force : Bool) (oracle : Oracle) (lock0 : Option (List (String × String)))
    (p : String) (names : List String)
    (hnd : keysNodupB (cfg.profiles.map (fun q => q.1)) = true)
    (hmem : (p, names) ∈ cfg.profiles)
    (htgt : (lookupStr p cfg.targets).isSome = true)
    (hsv : (build_servers_json names cfg.templates cfg.mcpServers).isEmpty = false) :
    lookupStr p ((run cfg env vb force false oracle lock0).lock.getD []) =
      some (builtHash env vb names cfg.templates cfg.mcpServers) :=
  lock_records_built_hash cfg env vb force oracle lock0 p names hnd hmem htgt hsv

/-- C2 witness: the amended theorem applied to the counterexample
configuration: profile `p` has a target and a nonempty server set, its
dispatch fails, and its built hash is nevertheless in the saved lock. -/
theorem built_hash_recorded_in_saved_lock_witness :
    keysNodupB (((⟨[], [("t", .obj [("command", .str "x")])], [("p", ["t"])],
        [("p", .other)]⟩ : Config)).profiles.map (fun q => q.1)) = true ∧
    lookupStr "p" ((run ⟨[], [("t", .obj [("command", .str "x")])], [("p", ["t"])],
        [("p", .other)]⟩ env0 false false false oracle0 none).lock.getD []) =
      some (builtHash env0 false ["t"] [("t", .obj [("command", .str "x")])] []) :=
  ⟨by decide,
   built_hash_recorded_in_saved_lock
     ⟨[], [("t", .obj [("command", .str "x")])], [("p", ["t"])], [("p", .other)]⟩
     env0 false false oracle0 none "p" ["t"] (by decide) (by decide) (by decide)
     (by decide)⟩

/-! ## C3: running twice -/

/-- C3 counterexample: for the configuration with one profile mapped to an
empty template list, the second run performs zero dispatches and the lock
file is untouched, but the profile is reported as having no valid servers,
not as unchanged — refuting the claim's "every profile is reported
unchanged". -/
theorem second_run_not_all_reported_unchanged :
    ((run ⟨[], [], [("p", [])], [("p", .path "out.json")]⟩ env0 false false false oracle0
        ((run ⟨[], [], [("p", [])], [("p", .path "out.json")]⟩ env0 false false false
          oracle0 none).lock)).dispatches = 0 ∧
     (run ⟨[], [], [("p", [])], [("p", .path "out.json")]⟩ env0 false false false oracle0
        ((run ⟨[], [], [("p", [])], [("p", .path "out.json")]⟩ env0 false false false
          oracle0 none).lock)).outcomes = [("p", .noServers)]) ∧
    ¬ (∀ po ∈ (run ⟨[], [], [("p", [])], [("p", .path "out.json")]⟩ env0 false false false
        oracle0 ((run ⟨[], [], [("p", [])], [("p", .path "out.json")]⟩ env0 false false
          false oracle0 none).lock)).outcomes, po.2 = RunOutcome.unchanged) := by
  refine ⟨⟨rfl, rfl⟩, ?_⟩
  intro h
  have hx := h ("p", RunOutcome.noServers) (List.mem_singleton.mpr rfl)
  exact RunOutcome.noConfusion hx

/-- C3 (amended): with unchanged configuration and environment and
duplicate-free profile names, a second non-force, non-preview run performs
zero target dispatches, leaves the lock state (hence its serialized bytes)
identical, and reports every profile either unchanged or — as on the first
run — without target or without servers. -/
theorem run_twice_zero_dispatches_lock_identical (cfg : Config) (env : EnvF)
    (vb : Bool) (o1 o2 : Oracle) (lock0 : Option (List (String × String)))
    (hnd : keysNodupB (cfg.profiles.map (fun q => q.1)) = true) :
    (run cfg env vb false false o2
        (run cfg env vb false false o1 lock0).lock).dispatches = 0 ∧
    (run cfg env vb false false o2 (run cfg env vb false false o1 lock0).lock).lock =
      (run cfg env vb false false o1 lock0).lock ∧
    lockBytesOpt (run cfg env vb false false o2
        (run cfg env vb false false o1 lock0).lock).lock =
      lockBytesOpt (run cfg env vb false false o1 lock0).lock ∧
    (∀ po ∈ (run cfg env vb false false o2
        (run cfg env vb false false o1 lock0).lock).outcomes,
      po.2 = RunOutcome.noTarget ∨ po.2 = RunOutcome.noServers ∨
        po.2 = RunOutcome.unchanged) := by
  by_cases h1 : cfg.profiles.isEmpty = true
  · have e1 : ∀ (o : Oracle) (lk : Option (List (String × String))),
        run cfg env vb false false o lk = ⟨lk, 0, [], []⟩ := by
      intro o lk
      unfold run
      simp [h1]
    rw [e1 o1 lock0, e1 o2 lock0]
    exact ⟨rfl, rfl, rfl, fun po hpo => absurd hpo (List.not_mem_nil po)⟩
  by_cases h2 : cfg.targets.isEmpty = true
  · have e1 : ∀ (o : Oracle) (lk : Option (List (String × String))),
        run cfg env vb false false o lk = ⟨lk, 0, [], []⟩ := by
      intro o lk
      unfold run
      simp [h1, h2]
    rw [e1 o1 lock0, e1 o2 lock0]
    exact ⟨rfl, rfl, rfl, fun po hpo => absurd hpo (List.not_mem_nil po)⟩
  have h1' : cfg.profiles.isEmpty = false := by
    revert h1; cases cfg.profiles.isEmpty <;> simp
  have h2' : cfg.targets.isEmpty = false := by
    revert h2; cases cfg.targets.isEmpty <;> simp
  have hL1 := run_lock_eq cfg env vb false o1 lock0 h1' h2'
  have HYP : ∀ p names, (p, names) ∈ cfg.profiles →
      (lookupStr p cfg.targets).isSome = true →
      (build_servers_json names cfg.templates cfg.mcpServers).isEmpty = false →
      lookupStr p (((run cfg env vb false false o1 lock0).lock).getD []) =
        some (builtHash env vb names cfg.templates cfg.mcpServers) := by
    intro p names hm ht hf
    exact lock_records_built_hash cfg env vb false o1 lock0 p names
      hnd hm ht hf
  obtain ⟨hd0, hout⟩ := runLoop_skip_all env vb o2
    (((run cfg env vb false false o1 lock0).lock).getD []) cfg.templates cfg.mcpServers
    cfg.targets cfg.profiles [] HYP
  refine ⟨?_, ?_, ?_, ?_⟩
  · rw [run_dispatches_eq cfg env vb false o2 _ h1' h2']
    exact hd0
  · rw [run_lock_eq cfg env vb false o2 _ h1' h2', hL1]
    by_cases hE : (pureHashes env vb cfg.templates cfg.mcpServers cfg.targets
        cfg.profiles []).isEmpty = true
    · simp [hE]
    · simp [hE]
  · rw [run_lock_eq cfg env vb false o2 _ h1' h2', hL1]
    by_cases hE : (pureHashes env vb cfg.templates cfg.mcpServers cfg.targets
        cfg.profiles []).isEmpty = true
    · simp [hE]
    · simp [hE]
  · rw [run_outcomes_eq cfg env vb false o2 _ h1' h2']
    exact hout

/-- C3 witness: the amended theorem applied to a one-profile configuration
with a file target. -/
theorem run_twice_zero_dispatches_lock_identical_witness :
    keysNodupB (((⟨[], [("t", .obj [("command", .str "x")])], [("p", ["t"])],
        [("p", .path "out.json")]⟩ : Config)).profiles.map (fun q => q.1)) = true ∧
    (run ⟨[], [("t", .obj [("command", .str "x")])], [("p", ["t"])],
        [("p", .path "out.json")]⟩ env0 false false false oracle0
      (run ⟨[], [("t", .obj [("command", .str "x")])], [("p", ["t"])],
        [("p", .path "out.json")]⟩ env0 false false false oracle0
          none).lock).dispatches = 0 :=
  ⟨by decide,
   (run_twice_zero_dispatches_lock_identical
     ⟨[], [("t", .obj [("command", .str "x")])], [("p", ["t"])],
       [("p", .path "out.json")]⟩ env0 false oracle0 oracle0 none (by decide)).1⟩

/-! ## C4: the content hash -/

theorem strLtL_asymm : ∀ (a b : List Char), strLtL a b = true → strLtL b a = true → False := by
  intro a
  induction a with
  | nil =>
    intro b h1 h2
    cases b with
    | nil => simp [strLtL] at h1
    | cons y ys => simp [strLtL] at h2
  | cons x xs ih =>
    intro b h1 h2
    cases b with
    | nil => simp [strLtL] at h1
    | cons y ys =>
      simp only [strLtL] at h1 h2
      by_cases hxy : x.toNat < y.toNat
      · rw [if_neg (by omega), if_pos hxy] at h2
        simp at h2
      · by_cases hyx : y.toNat < x.toNat
        · rw [if_neg hxy, if_pos hyx] at h1
          simp at h1
        · rw [if_neg hxy, if_neg hyx] at h1
          rw [if_neg hyx, if_neg hxy] at h2
          exact ih ys h1 h2

theorem strLtL_trichotomy : ∀ (a b : List Char),
    strLtL a b = true ∨ a = b ∨ strLtL b a = true := by
  intro a
  induction a with
  | nil =>
    intro b
    cases b with
    | nil => exact Or.inr (Or.inl rfl)
    | cons y ys => exact Or.inl (by simp [strLtL])
  | cons x xs ih =>
    intro b
    cases b with
    | nil => exact Or.inr (Or.inr (by simp [strLtL]))
    | cons y ys =>
      by_cases hxy : x.toNat < y.toNat
      · exact Or.inl (by simp [strLtL, hxy])
      · by_cases hyx : y.toNat < x.toNat
        · exact Or.inr (Or.inr (by simp [strLtL, hyx]))
        · have hxe : x = y := Char.ext (UInt32.ext
            (show x.val.toNat = y.val.toNat by
              have h1 : x.toNat = x.val.toNat := rfl
              have h2 : y.toNat = y.val.toNat := rfl
              omega))
          subst hxe
          rcases ih ys with h | h | h
          · exact Or.inl (by simp [strLtL, h])
          · exact Or.inr (Or.inl (by rw [h]))
          · exact Or.inr (Or.inr (by simp [strLtL, h]))

theorem strLtL_trans : ∀ (a b c : List Char),
    strLtL a b = true → strLtL b c = true → strLtL a c = true := by
  intro a
  induction a with
  | nil =>
    intro b c h1 h2
    cases b with
    | nil => simp [strLtL] at h1
    | cons y ys =>
      cases c with
      | nil => simp [strLtL] at h2
      | cons z zs => simp [strLtL]
  | cons x xs ih =>
    intro b c h1 h2
    cases b with
    | nil => simp [strLtL] at h1
    | cons y ys =>
      cases c with
      | nil => simp [strLtL] at h2
      | cons z zs =>
        simp only [strLtL] at h1 h2 ⊢
        by_cases hxy : x.toNat < y.toNat
        · by_cases hyz : y.toNat < z.toNat
          · rw [if_pos (by omega)]
          · by_cases hzy : z.toNat < y.toNat
            · rw [if_neg hyz, if_pos hzy] at h2
              simp at h2
            · have : y.toNat = z.toNat := by omega
              rw [if_pos (by omega)]
        · by_cases hyx : y.toNat < x.toNat
          · rw [if_neg hxy, if_pos hyx] at h1
            simp at h1
          · have hxy' : x.toNat = y.toNat := by omega
            rw [if_neg hxy, if_neg hyx] at h1
            by_cases hyz : y.toNat < z.toNat
            · rw [if_pos (by omega)]
            · by_cases hzy : z.toNat < y.toNat
              · rw [if_neg hyz, if_pos hzy] at h2
                simp at h2
              · rw [if_neg hyz, if_neg hzy] at h2
                rw [if_neg (by omega), if_neg (by omega)]
                exact ih ys zs h1 h2

theorem string_data_inj (a b : String) (h : a.data = b.data) : a = b := by
  cases a
  cases b
  exact congrArg String.mk h

theorem keyLt_asymm (a b : String) (h1 : keyLt a b = true) (h2 : keyLt b a = true) :
    False := strLtL_asymm a.data b.data h1 h2

theorem keyLe_total (a b : String) : keyLe a b = true ∨ keyLe b a = true := by
  rcases strLtL_trichotomy a.data b.data with h | h | h
  · exact Or.inl (by simp [keyLe, keyLt, h])
  · exact Or.inl (by simp [keyLe, keyLt, string_data_inj a b h])
  · exact Or.inr (by simp [keyLe, keyLt, h])

theorem keyLe_trans (a b c : String) (h1 : keyLe a b = true) (h2 : keyLe b c = true) :
    keyLe a c = true := by
  simp only [keyLe, Bool.or_eq_true, decide_eq_true_eq] at h1 h2 ⊢
  rcases h1 with h1 | h1
  · rcases h2 with h2 | h2
    · exact Or.inl (strLtL_trans a.data b.data c.data h1 h2)
    · subst h2; exact Or.inl h1
  · subst h1; exact h2

theorem keysNodupB_iff_pairwise : ∀ (ks : List String),
    keysNodupB ks = true ↔ ks.Pairwise (fun a b => a ≠ b) := by
  intro ks
  induction ks with
  | nil => simp [keysNodupB]
  | cons k ks ih =>
    unfold keysNodupB
    rw [Bool.and_eq_true, Bool.not_eq_true', List.pairwise_cons]
    constructor
    · rintro ⟨h1, h2⟩
      refine ⟨fun a ha hka => ?_, ih.mp h2⟩
      have hx : ks.any (fun k' => decide (k' = k)) = true :=
        List.any_eq_true.mpr ⟨a, ha, by simp [hka.symm]⟩
      rw [h1] at hx
      exact Bool.noConfusion hx
    · rintro ⟨h1, h2⟩
      refine ⟨?_, ih.mpr h2⟩
      by_contra hany
      have hx : ks.any (fun k' => decide (k' = k)) = true := by
        revert hany
        cases ks.any (fun k' => decide (k' = k)) <;> simp
      obtain ⟨a, ha, hd⟩ := List.any_eq_true.mp hx
      simp only [decide_eq_true_eq] at hd
      exact h1 a ha hd.symm

/-- Two permuted entry lists with duplicate-free keys have the same
key-sorted arrangement. -/
theorem sortPairs_eq_of_perm (l₁ l₂ : List (String × List Char))
    (hperm : l₁.Perm l₂) (hnd : l₁.Pairwise (fun p q => p.1 ≠ q.1)) :
    sortPairs l₁ = sortPairs l₂ := by
  have hsymm : ∀ {p q : String × List Char}, p.1 ≠ q.1 → q.1 ≠ p.1 :=
    fun h => h.symm
  haveI : IsTotal (String × List Char) entryLe :=
    ⟨fun a b => by
      rcases keyLe_total a.1 b.1 with h | h
      · exact Or.inl h
      · exact Or.inr h⟩
  haveI : IsTrans (String × List Char) entryLe :=
    ⟨fun a b c h1 h2 => keyLe_trans a.1 b.1 c.1 h1 h2⟩
  have hs₁ : (sortPairs l₁).Pairwise entryLe := List.sorted_insertionSort entryLe l₁
  have hs₂ : (sortPairs l₂).Pairwise entryLe := List.sorted_insertionSort entryLe l₂
  have hp : (sortPairs l₁).Perm (sortPairs l₂) :=
    (List.perm_insertionSort entryLe l₁).trans
      (hperm.trans (List.perm_insertionSort entryLe l₂).symm)
  have hnd₂ : l₂.Pairwise (fun p q => p.1 ≠ q.1) :=
    (hperm.pairwise_iff hsymm).mp hnd
  have hnds₁ : (sortPairs l₁).Pairwise (fun p q => p.1 ≠ q.1) :=
    ((List.perm_insertionSort entryLe l₁).pairwise_iff hsymm).mpr hnd
  have hnds₂ : (sortPairs l₂).Pairwise (fun p q => p.1 ≠ q.1) :=
    ((List.perm_insertionSort entryLe l₂).pairwise_iff hsymm).mpr hnd₂
  have hconv : ∀ {m : List (String × List Char)}, m.Pairwise entryLe →
      m.Pairwise (fun p q => p.1 ≠ q.1) →
      m.Pairwise (fun p q => keyLt p.1 q.1 = true) := by
    intro m hle hne
    refine (hle.and hne).imp ?_
    rintro a b ⟨h1, h2⟩
    simp only [entryLe, keyLe, Bool.or_eq_true, decide_eq_true_eq] at h1
    rcases h1 with h1 | h1
    · exact h1
    · exact absurd h1 h2
  haveI : IsAntisymm (String × List Char) (fun p q => keyLt p.1 q.1 = true) :=
    ⟨fun a b h1 h2 => (keyLt_asymm a.1 b.1 h1 h2).elim⟩
  exact List.eq_of_perm_of_sorted hp (hconv hs₁ hnds₁) (hconv hs₂ hnds₂)

theorem dumpsEntries_eq_map : ∀ (l : List (String × Json)),
    dumpsEntries l = l.map (fun p => (p.1, dumpsL p.2)) := by
  intro l
  induction l with
  | nil => rfl
  | cons p l ih =>
    rcases p with ⟨k, v⟩
    simp [dumpsEntries, ih]

theorem jpermEntries_keys : ∀ {l m : List (String × Json)}, JPermEntries l m →
    l.map (fun p => p.1) = m.map (fun p => p.1)
  | _, _, .nil => rfl
  | _, _, .cons k v w l m hvw h => by
    simp only [List.map_cons]
    rw [jpermEntries_keys h]

mutual
theorem dumpsL_jperm : ∀ {a b : Json}, JPerm a b → JNodup a = true →
    dumpsL a = dumpsL b
  | _, _, .null, _ => rfl
  | _, _, .bool b, _ => rfl
  | _, _, .num n, _ => rfl
  | _, _, .str s, _ => rfl
  | _, _, .arr xs ys h, hn => by
    have h2 := dumpsArr_jperm h (by simpa [JNodup] using hn)
    simp only [dumpsL]
    rw [h2]
  | _, _, .obj l m m' hent hperm, hn => by
    have hn' : keysNodupB (l.map (fun p => p.1)) = true ∧ JNodupEntries l = true := by
      simpa [JNodup] using hn
    have he := dumpsEntries_jperm hent hn'.2
    have hp : (dumpsEntries m).Perm (dumpsEntries m') := by
      rw [dumpsEntries_eq_map, dumpsEntries_eq_map]
      exact hperm.map _
    have hknd : (dumpsEntries m).Pairwise (fun p q => p.1 ≠ q.1) := by
      rw [dumpsEntries_eq_map]
      rw [List.pairwise_map]
      have hkeys : m.map (fun p => p.1) = l.map (fun p => p.1) :=
        (jpermEntries_keys hent).symm
      have hpw : (m.map (fun p => p.1)).Pairwise (fun a b => a ≠ b) := by
        rw [hkeys]
        exact (keysNodupB_iff_pairwise _).mp hn'.1
      rw [List.pairwise_map] at hpw
      exact hpw
    simp only [dumpsL]
    rw [he, sortPairs_eq_of_perm (dumpsEntries m) (dumpsEntries m') hp hknd]

theorem dumpsArr_jperm : ∀ {xs ys : List Json}, JPermList xs ys →
    JNodupList xs = true → dumpsArr xs = dumpsArr ys
  | _, _, .nil, _ => rfl
  | _, _, .cons x y _ _ hxy .nil, hn => by
    have h1 : JNodup x = true := by
      simp only [JNodupList, Bool.and_eq_true] at hn
      exact hn.1
    simp only [dumpsArr]
    rw [dumpsL_jperm hxy h1]
  | _, _, .cons x y _ _ hxy (.cons x' y' xs' ys' hxy' hrest), hn => by
    have h1 : JNodup x = true := by
      simp only [JNodupList, Bool.and_eq_true] at hn
      exact hn.1
    have h2 : JNodupList (x' :: xs') = true := by
      simp only [JNodupList, Bool.and_eq_true] at hn ⊢
      exact hn.2
    simp only [dumpsArr]
    rw [dumpsL_jperm hxy h1, dumpsArr_jperm (.cons x' y' xs' ys' hxy' hrest) h2]

theorem dumpsEntries_jperm : ∀ {l m : List (String × Json)}, JPermEntries l m →
    JNodupEntries l = true → dumpsEntries l = dumpsEntries m
  | _, _, .nil, _ => rfl
  | _, _, .cons k v w l m hvw hrest, hn => by
    have h1 : JNodup v = true := by
      simp only [JNodupEntries, Bool.and_eq_true] at hn
      exact hn.1
    have h2 : JNodupEntries l = true := by
      simp only [JNodupEntries, Bool.and_eq_true] at hn
      exact hn.2
    simp only [dumpsEntries]
    rw [dumpsL_jperm hvw h1, dumpsEntries_jperm hrest h2]
end

theorem roundStep_length (wi ki : Nat) (st : List Nat) :
    (roundStep wi ki st).length = 8 := rfl

theorem mainLoop_length : ∀ (l : List (Nat × Nat)) (st : List Nat),
    st.length = 8 → (mainLoop l st).length = 8 := by
  intro l
  induction l with
  | nil => intro st h; exact h
  | cons p l ih =>
    intro st h
    rcases p with ⟨wi, ki⟩
    exact ih (roundStep wi ki st) (roundStep_length wi ki st)

theorem addStates_length (st st' : List Nat) (h : st.length = 8) (h' : st'.length = 8) :
    (addStates st st').length = 8 := by
  simp [addStates, List.length_zip, h, h']

theorem compressChunk_length (st chunk : List Nat) (h : st.length = 8) :
    (compressChunk st chunk).length = 8 := by
  unfold compressChunk
  exact addStates_length _ _ h (mainLoop_length _ st h)

theorem sha256State_length (msg : List Nat) : (sha256State msg).length = 8 := by
  unfold sha256State
  have : ∀ (chunks : List (List Nat)) (st : List Nat), st.length = 8 →
      (chunks.foldl compressChunk st).length = 8 := by
    intro chunks
    induction chunks with
    | nil => intro st h; exact h
    | cons c cs ih =>
      intro st h
      exact ih (compressChunk st c) (compressChunk_length st c h)
  exact this _ shaH0 rfl

theorem foldl_digits_lt : ∀ (l : List Nat) (acc : Nat),
    l.foldl (fun acc h => acc * 4294967296 + m32 h) acc <
      (acc + 1) * 4294967296 ^ l.length := by
  intro l
  induction l with
  | nil => intro acc; simp
  | cons x l ih =>
    intro acc
    simp only [List.foldl_cons, List.length_cons]
    calc l.foldl (fun acc h => acc * 4294967296 + m32 h) (acc * 4294967296 + m32 x)
        < (acc * 4294967296 + m32 x + 1) * 4294967296 ^ l.length := ih _
      _ ≤ ((acc + 1) * 4294967296) * 4294967296 ^ l.length := by
          have hm : m32 x < 4294967296 := Nat.mod_lt _ (by norm_num)
          have : acc * 4294967296 + m32 x + 1 ≤ (acc + 1) * 4294967296 := by
            nlinarith
          exact Nat.mul_le_mul_right _ this
      _ = (acc + 1) * 4294967296 ^ (l.length + 1) := by ring

theorem digestNat_lt (st : List Nat) (h : st.length = 8) : digestNat st < 2 ^ 256 := by
  have := foldl_digits_lt st 0
  rw [h] at this
  unfold digestNat
  calc st.foldl (fun acc h => acc * 4294967296 + m32 h) 0
      < (0 + 1) * 4294967296 ^ 8 := this
    _ = 2 ^ 256 := by norm_num

theorem hashNat_lt (j : Json) : hashNat j < 2 ^ 256 :=
  digestNat_lt _ (sha256State_length _)

theorem escape_a_replicate : ∀ (n : Nat),
    concatAll ((List.replicate n 'a').map escapeChar) = List.replicate n 'a' := by
  intro n
  induction n with
  | zero => rfl
  | succ n ih =>
    simp only [List.replicate_succ, List.map_cons, concatAll]
    rw [ih]
    rfl

theorem dumpsL_repA_length (n : Nat) :
    (dumpsL (Json.str (String.mk (List.replicate n 'a')))).length = n + 2 := by
  show (dumpStrL (String.mk (List.replicate n 'a'))).length = n + 2
  unfold dumpStrL
  rw [show (String.mk (List.replicate n 'a')).data = List.replicate n 'a' from rfl]
  rw [escape_a_replicate]
  simp

/-- C4 counterexample (nonconstructive): the claim's "exactly when" fails as a
universal statement.  `hash_json_data` maps the infinitely many pairwise
distinct canonical serializations of the strings `"a"*k`, `k ≤ 2^256`, into
only `2^256` possible digests, so by the pigeonhole principle two distinct
inputs with different canonical serializations share a hash; no explicit
collision is (or can feasibly be) exhibited. -/
theorem hash_eq_iff_serialization_eq_refuted :
    ¬ (∀ a b : Json, hash_json_data a = hash_json_data b ↔ dumps a = dumps b) := by
  intro hcl
  obtain ⟨i, j, hne, heq⟩ := Fintype.exists_ne_map_eq_of_card_lt
    (fun i : Fin (2 ^ 256 + 1) =>
      (⟨hashNat (Json.str (String.mk (List.replicate i.val 'a'))),
        hashNat_lt _⟩ : Fin (2 ^ 256)))
    (by rw [Fintype.card_fin, Fintype.card_fin]; exact Nat.lt_succ_self _)
  have hval : hashNat (Json.str (String.mk (List.replicate i.val 'a'))) =
      hashNat (Json.str (String.mk (List.replicate j.val 'a'))) :=
    congrArg Fin.val heq
  have hh : hash_json_data (Json.str (String.mk (List.replicate i.val 'a'))) =
      hash_json_data (Json.str (String.mk (List.replicate j.val 'a'))) := by
    unfold hash_json_data
    rw [hval]
  have hd := (hcl _ _).mp hh
  have hdl := congrArg (fun s : String => s.data.length) hd
  simp only [dumps] at hdl
  rw [dumpsL_repA_length, dumpsL_repA_length] at hdl
  exact hne (Fin.ext (by omega))

/-- C4 (amended): byte-identical canonical serializations give equal hashes;
permuting mapping entries at any depth of a tree with duplicate-free keys
does not change its hash; and the hash of the empty mapping differs from the
hash of the empty sequence.  (The converse — equal hashes implying identical
serializations — is a collision-resistance assumption and is false as a
universal statement, per the pigeonhole refutation.) -/
theorem hash_canonical_serialization_properties : ∀ a b : Json,
    (dumps a = dumps b → hash_json_data a = hash_json_data b) ∧
    (JPerm a b → JNodup a = true → hash_json_data a = hash_json_data b) ∧
    hash_json_data (Json.obj []) ≠ hash_json_data (Json.arr []) := by
  have hne : hash_json_data (Json.obj []) ≠ hash_json_data (Json.arr []) := by decide
  intro a b
  refine ⟨?_, ?_, hne⟩
  · intro h
    have hdd : dumpsL a = dumpsL b := congrArg String.data h
    unfold hash_json_data hashNat
    rw [hdd]
  · intro hp hn
    unfold hash_json_data hashNat
    rw [dumpsL_jperm hp hn]

/-- C4 witness: permuting the two entries of a concrete mapping leaves the
hash unchanged. -/
theorem hash_canonical_serialization_properties_witness :
    JPerm (.obj [("x", .null), ("y", .bool true)])
      (.obj [("y", .bool true), ("x", .null)]) ∧
    JNodup (.obj [("x", .null), ("y", .bool true)]) = true ∧
    hash_json_data (.obj [("x", .null), ("y", .bool true)]) =
      hash_json_data (.obj [("y", .bool true), ("x", .null)]) := by
  have hp : JPerm (.obj [("x", .null), ("y", .bool true)])
      (.obj [("y", .bool true), ("x", .null)]) :=
    JPerm.obj [("x", .null), ("y", .bool true)] [("x", .null), ("y", .bool true)]
      [("y", .bool true), ("x", .null)]
      (JPermEntries.cons "x" .null .null _ _ JPerm.null
        (JPermEntries.cons "y" (.bool true) (.bool true) _ _ (JPerm.bool true)
          JPermEntries.nil))
      (List.Perm.swap ("y", Json.bool true) ("x", Json.null) [])
  exact ⟨hp, by decide,
    (hash_canonical_serialization_properties _ _).2.1 hp (by decide)⟩

end BuildMCP
